import Mathlib

/-!
# Verification of the simple-rl-driver core

A shallow embedding, in Lean 4, of the core of the `simple-rl-driver`
repository (a 2D driving simulation whose cars are controlled by small
feed-forward neural networks evolved by mutation), together with proofs
about that embedding.

Modelling conventions:

* Python floats are modelled as exact rationals (`ℚ`); the geometric
  sensor model (which genuinely needs square roots and trigonometry) is
  stated over `ℝ`.
* Calls to `np.random.normal(loc, scale, size)` are modelled by passing
  an explicit family of standard-normal draws `z : ℕ → ℕ → ℕ → ℚ`
  (indexed by matrix, row, column); the sampled entry is
  `loc + scale * z k i j`.  With `scale = 0` numpy returns exactly
  `loc`, which the model reproduces.
* Python's `math.cos`, `math.sin`, `math.atan2`, `math.pi` and the
  wrap-around `% (2 * math.pi)` used by the kinematics have no exact
  rational counterpart; they are passed as an explicit oracle
  (`TrigM`).  Every property proved below holds for all oracles, and
  every counterexample instantiates a concrete oracle.
* Mutable Python objects reached through references are modelled by
  value-passing state; where object identity matters (the population's
  neural networks and `deepcopy`), an explicit store of networks with
  numeric references makes sharing observable.
* Fallible operations (`raise ValueError`, `IndexError`) return
  `Except String` or `Option`.
-/

namespace SRLD

/-! ## Matrices as nested lists (numpy `ndarray`s of shape (rows, cols)) -/

/-- A weight matrix: a list of rows, each a list of rational entries.
Models a 2-dimensional `np.ndarray` (float entries modelled exactly). -/
abbrev Mat := List (List ℚ)

/-- Map over a list with the element index, starting the index at `n`.
Used to thread the (matrix, row, column) indices of random draws. -/
def mapWithIdx (f : ℕ → α → β) : ℕ → List α → List β
  | _, [] => []
  | n, a :: as => f n a :: mapWithIdx f (n + 1) as

/-- Number of columns of a matrix, i.e. numpy's `shape[1]`
(the matrices this program builds are rectangular, so the first row's
length is the column count). -/
def numCols (w : Mat) : ℕ := (w.headD []).length

/-! ## `engine/car_nn.py` : class `CarNN` -/

/-- The state of `CarNN`.  The Python object also stores the activation
callable; functions have no decidable equality, so the activation is
passed as an explicit argument to `CarNN.activate` instead (no claim
depends on it, and no method of the class replaces it). -/
structure CarNN where
  /-- `self.prev_fitness` : previous fitness for mutation. -/
  prev_fitness : Option ℚ
  /-- `self.prev_weights` : previous weights for mutation. -/
  prev_weights : Option (List Mat)
  /-- `self.weights`. -/
  weights : List Mat
  /-- `self.layer_sizes` (Python ints). -/
  layer_sizes : List ℤ
  /-- `self.hiddens`. -/
  hiddens : List (List ℚ)
deriving DecidableEq

/-- `np.sign` on a real scalar: `-1`, `0` or `1` (in particular
`np.sign(0.0) == 0.0`). -/
def sgn (q : ℚ) : ℚ := if 0 < q then 1 else if q < 0 then -1 else 0

/-- The "pure random" branch of `CarNN.mutate`: add
`np.random.normal(loc=0, scale=noise, size=w.shape)` to every weight
matrix in place, i.e. entry `(k, i, j)` becomes
`w[k][i][j] + noise * z k i j`. -/
def addNoise (noise : ℚ) (z : ℕ → ℕ → ℕ → ℚ) (ws : List Mat) : List Mat :=
  mapWithIdx (fun k w =>
    mapWithIdx (fun i row =>
      mapWithIdx (fun j x => x + noise * z k i j) 0 row) 0 w) 0 ws

/-- `CarNN.mutate(self, noise, learn_rate=0, curr_fitness=None)`.

The Python code takes the pure-random branch (and returns early) when
`self.prev_weights is None or curr_fitness is None or learn_rate == 0`.

Otherwise (the "gradient descent" branch) it computes
`dfitness = curr_fitness - self.prev_fitness`,
`dweights[k] = self.weights[k] - self.prev_weights[k]`, then runs

  self.prev_fitness = curr_fitness
  self.prev_weights = self.weights      -- a REFERENCE to the same list
  for i in ...: self.weights[i] += learn_rate * sign * dweights[i] * N(1, noise)

`self.prev_weights = self.weights` stores an alias of the very list of
ndarrays that the loop then updates in place (`+=` on an ndarray is
in-place), so after the call `prev_weights` observably holds the
POST-update weight values; the model reflects that by storing the new
weights.  `N(1, noise)` at entry `(k,i,j)` is `1 + noise * z k i j`.

The element-wise arithmetic is written with `getD`: when the shapes of
`prev_weights` match those of `weights` (the only case the program ever
creates, since `prev_weights` is only ever assigned an alias of
`weights`), the defaults are never read; on mismatched shapes the
Python code would raise `IndexError`.  If `prev_weights` is set while
`prev_fitness` is `None` (a state the class never creates: the two are
only assigned together) the Python subtraction would raise `TypeError`;
the model's `getD 0` never fires in the states quantified over. -/
def CarNN.mutate (nn : CarNN) (noise learn_rate : ℚ) (curr_fitness : Option ℚ)
    (z : ℕ → ℕ → ℕ → ℚ) : CarNN :=
  if nn.prev_weights = none ∨ curr_fitness = none ∨ learn_rate = 0 then
    { nn with weights := addNoise noise z nn.weights }
  else
    let pw := nn.prev_weights.getD []
    let s := sgn (curr_fitness.getD 0 - nn.prev_fitness.getD 0)
    let newW :=
      mapWithIdx (fun k w =>
        mapWithIdx (fun i row =>
          mapWithIdx (fun j x =>
            x + learn_rate * s * (x - ((pw.getD k []).getD i []).getD j 0)
              * (1 + noise * z k i j)) 0 row) 0 w) 0 nn.weights
    { nn with
      weights := newW
      prev_fitness := curr_fitness
      prev_weights := some newW }

/-- Python truthiness of an `Optional[List[...]]` argument:
`not x` is true exactly when `x` is `None` or the empty list. -/
def truthyList : Option (List α) → Bool
  | none => false
  | some l => !l.isEmpty

/-- The layer sizes `CarNN.__init__` derives when `layer_sizes` is
falsy: `[weights[0].shape[0] - 1, *(w.shape[1] for w in weights)]`. -/
def reconstructedSizes (ws : List Mat) : List ℤ :=
  (((ws.headD []).length : ℤ) - 1) :: ws.map (fun w => (numCols w : ℤ))

/-- The zero-filled hidden layers `CarNN.__init__` builds from
`self.layer_sizes[1:-1]` (negative sizes would make numpy raise; the
model truncates them to zero-length layers). -/
def hiddensOf (ls : List ℤ) : List (List ℚ) :=
  ls.tail.dropLast.map (fun s => List.replicate s.toNat (0 : ℚ))

/-- `CarNN.__init__(self, activation, weights=None, layer_sizes=None)`.

Raises (`ValueError`) exactly when `not weights and not layer_sizes`,
i.e. when both arguments are falsy (absent OR empty lists).  Otherwise:
`self.weights = weights or [normal draws of shape (prev+1, curr)]` and
`self.layer_sizes = layer_sizes or [w0.shape[0]-1, *(w.shape[1] ...)]`
(Python `or` picks the left operand when truthy).  `zinit` supplies the
standard-normal draws of `np.random.normal(size=(prev+1, curr))`. -/
def CarNN.init (weights : Option (List Mat)) (layer_sizes : Option (List ℤ))
    (zinit : ℕ → ℕ → ℕ → ℚ) : Except String CarNN :=
  if truthyList weights = false ∧ truthyList layer_sizes = false then
    .error "Either weights or layer_sizes must be provided"
  else
    let ls := layer_sizes.getD []
    let ws : List Mat :=
      if truthyList weights then weights.getD []
      else
        mapWithIdx (fun k pc =>
          (List.range (pc.1 + 1).toNat).map (fun i =>
            (List.range pc.2.toNat).map (fun j => zinit k i j))) 0 (ls.zip ls.tail)
    let lsizes : List ℤ :=
      if truthyList layer_sizes then ls else reconstructedSizes (weights.getD [])
    .ok { prev_fitness := none
          prev_weights := none
          weights := ws
          layer_sizes := lsizes
          hiddens := hiddensOf lsizes }

/-- `np.dot(np.concatenate((x, [1.0])), w)` : the bias-extended vector
times the matrix; component `j` is `Σ_i xe[i] * w[i][j]`.  (numpy
raises on a length mismatch between `xe` and the rows of `w`; the
model's `zip` truncates instead, which no claim exercises.) -/
def dotBias (x : List ℚ) (w : Mat) : List ℚ :=
  let xe := x ++ [1]
  (List.range (numCols w)).map (fun j =>
    ((xe.zip w).map (fun p => p.1 * p.2.getD j 0)).sum)

/-- `np.clip(v, -1.0, 1.0)` element-wise. -/
def clipVec (v : List ℚ) : List ℚ := v.map (fun x => max (-1) (min 1 x))

/-- The chain `h₀ = act(dot(inputs⧺1, W₀))`,
`hᵢ = act(dot(hᵢ₋₁⧺1, Wᵢ))`, returned as the list of the first `n`
hidden layers; `prev` is the previous layer's value and `i` the index
of the next weight matrix to use. -/
def hiddensSeq (act : List ℚ → List ℚ) (ws : List Mat) :
    List ℚ → ℕ → ℕ → List (List ℚ)
  | _, _, 0 => []
  | prev, i, n + 1 =>
    let h := act (dotBias prev (ws.getD i []))
    h :: hiddensSeq act ws h (i + 1) n

/-- `CarNN.activate(self, inputs)`.  Raises (`ValueError`) when
`len(inputs) != self.layer_sizes[0]`; raises `IndexError` when there
are no hidden layers (the code assigns `self.hiddens[0]` first).
Otherwise recomputes every hidden layer in order and returns the output
layer clipped to `[-1, 1]`, together with the updated object state. -/
def CarNN.activate (nn : CarNN) (act : List ℚ → List ℚ) (inputs : List ℚ) :
    Except String (CarNN × List ℚ) :=
  if (inputs.length : ℤ) ≠ nn.layer_sizes.headD 0 then
    .error "wrong number of inputs"
  else if nn.hiddens.length = 0 then
    .error "list index out of range"
  else
    let newH := hiddensSeq act nn.weights inputs 0 nn.hiddens.length
    let out := clipVec (dotBias (newH.getLastD []) (nn.weights.getLastD []))
    .ok ({ nn with hiddens := newH }, out)

/-- `CarNN.serialize(self)` returns
`json.dumps([w.tolist() for w in self.weights])`.  The JSON text is
modelled by its information content, the nested list of entries
(`json.dumps` / `json.loads` are mutually inverse on it). -/
def CarNN.serialize (nn : CarNN) : List Mat := nn.weights

/-- `CarNN.deserialize(cls, activation, string, init_mutate_noise=0.0)`:
build a network with `weights=[np.array(w, dtype=np.float32) ...]`
through the constructor (the `float32` cast is exact in the rational
model), then mutate it iff `init_mutate_noise` is truthy (nonzero). -/
def CarNN.deserialize (s : List Mat) (init_mutate_noise : ℚ)
    (z : ℕ → ℕ → ℕ → ℚ) : Except String CarNN :=
  match CarNN.init (some s) none (fun _ _ _ => 0) with
  | .error e => .error e
  | .ok nn =>
    .ok (if init_mutate_noise ≠ 0 then nn.mutate init_mutate_noise 0 none z else nn)

/-- The `CarNN` states reachable through the public interface: built by
the constructor or `deserialize`, then transformed by any sequence of
`mutate` and (successful) `activate` calls.  `serialize` does not
change the object, so it needs no constructor here. -/
inductive CarNN.Reachable : CarNN → Prop
  | init : ∀ w ls z nn, CarNN.init w ls z = .ok nn → CarNN.Reachable nn
  | deserialize : ∀ s ν z nn, CarNN.deserialize s ν z = .ok nn → CarNN.Reachable nn
  | mutate : ∀ nn noise lr cf z, CarNN.Reachable nn →
      CarNN.Reachable (nn.mutate noise lr cf z)
  | activate : ∀ nn act inp nn' out, CarNN.Reachable nn →
      nn.activate act inp = .ok (nn', out) → CarNN.Reachable nn'

/-! ## `engine/entity/car.py` : class `Car` (kinematics and progress) -/

/-- The transcendental-function oracle.  `Car` uses `math.cos`,
`math.sin` (via `utils.dir` and `get_transform`), `math.atan2`,
`math.pi` and `% (2 * math.pi)`; none of these is exactly
representable over `ℚ`, so they are parameters of the model.  Every
theorem below holds for every oracle, and concrete evaluations pick a
concrete one. -/
structure TrigM where
  /-- models `math.cos`. -/
  cosF : ℚ → ℚ
  /-- models `math.sin`. -/
  sinF : ℚ → ℚ
  /-- models `fun r => r % (2 * math.pi)` used by `Transformable.rotate`. -/
  wrapTwoPi : ℚ → ℚ
  /-- models `math.atan2`. -/
  atan2F : ℚ → ℚ → ℚ
  /-- models `math.pi`. -/
  piQ : ℚ

/-- The part of a `Track` that `Car` reads: the positions of the
Bézier curve's points (`track.curve.pts[i].x/.y`, used by
`set_start_pos`), the polyline checkpoints, the road half-width, and
the point-containment test `Polygon(track.polygon).contains(Point ·)`
of the shapely library, modelled as an oracle on points. -/
structure TrackM where
  /-- positions of `track.curve.pts`. -/
  curvePts : List (ℚ × ℚ)
  /-- `track.polyline`. -/
  polyline : List (ℚ × ℚ)
  /-- `track.width`. -/
  width : ℚ
  /-- `Polygon(track.polygon).contains(Point (x, y))`. -/
  containsPt : ℚ × ℚ → Bool

/-- The per-tick input `{forward, turn}`. -/
structure CarInput where
  forward : ℚ
  turn : ℚ
deriving DecidableEq

/-- The mutable state of `Car` (position and rotation are inherited
from `Transformable`). -/
structure CarState where
  x : ℚ
  y : ℚ
  rot : ℚ
  speed : ℚ
  acceleration : ℚ
  max_speed : ℚ
  turn_speed : ℚ
  out_of_track : Bool
  progress : ℕ
  total_progress : ℕ
deriving DecidableEq

/-- `Car.__init__(x=0, y=0, rot=0, max_speed=400, turn_speed=2)`. -/
def Car.init (x y rot max_speed turn_speed : ℚ) : CarState :=
  { x := x, y := y, rot := rot, speed := 0, acceleration := 0
    max_speed := max_speed, turn_speed := turn_speed
    out_of_track := false, progress := 0, total_progress := 0 }

/-- The snap-to-zero step `if (speed < 0.1) and (speed > -0.1): speed = 0`
that follows both deceleration updates in `Car.update`. -/
def snapSmall (s : ℚ) : ℚ := if s < 1 / 10 ∧ -(1 / 10) < s then 0 else s

/-- One corner of the car rectangle:
`rotate_angle(px, py, rad)` from `Car.get_transform`, returning
`(x + cos(rad)*px - sin(rad)*py, y + sin(rad)*px + cos(rad)*py)`. -/
def rotateAngle (tg : TrigM) (c : CarState) (px py rad : ℚ) : ℚ × ℚ :=
  (c.x + tg.cosF rad * px - tg.sinF rad * py,
   c.y + tg.sinF rad * px + tg.cosF rad * py)

/-- `Car.get_transform(self)` : the four corners of the car rectangle
(`WIDTH = 24`, `HEIGHT = 32`), each rotated by `-self.rot` about the
car's position. -/
def Car.get_transform (tg : TrigM) (c : CarState) : List (ℚ × ℚ) :=
  [rotateAngle tg c (-12) (-16) (-c.rot),
   rotateAngle tg c 12 (-16) (-c.rot),
   rotateAngle tg c 12 16 (-c.rot),
   rotateAngle tg c (-12) 16 (-c.rot)]

/-- The checkpoint test of `Car.update`:
`Point(track.polyline[i]).distance(Point(x, y)) < track.width + HEIGHT`
with `HEIGHT = 32`.  The Euclidean distance needs a square root, so the
model compares squares: for a threshold `w`, `dist < w` holds iff
`0 ≤ w ∧ dist² < w²` (for `w < 0` both sides are false; for `0 ≤ w`
squaring both nonnegative sides preserves `<`). -/
def checkPt (track : TrackM) (p : ℚ × ℚ) (i : ℕ) : Bool :=
  let q := track.polyline.getD i (0, 0)
  let w := track.width + 32
  decide (0 ≤ w ∧ (q.1 - p.1) ^ 2 + (q.2 - p.2) ^ 2 < w ^ 2)

/-- The progress loop of `Car.update`:

  for i in range(progress, len(track.polyline)):
      if not is_in_check_pt: break
      self.progress = i + 1

Starting from `p`, it returns the first index `i ∈ [p, n)` whose check
fails (leaving `progress = i`), or `n` when every remaining check
passes. -/
def progressLoop (check : ℕ → Bool) (p n : ℕ) : ℕ :=
  if _h : p < n then
    if check p then progressLoop check (p + 1) n else p
  else p
termination_by n - p

/-- The speed after the acceleration/deceleration stage of
`Car.update` (lines computing `self.acceleration` and the first
`self.speed` update): with `acceleration = forward * 5000 * dt`, either
accelerate and clamp to `[-max_speed, max_speed]`, or decay by
`speed * 0.6 * dt` and snap small values to zero. -/
def speedAfterInput (c : CarState) (inp : CarInput) (dt : ℚ) : ℚ :=
  let acc := inp.forward * 5000 * dt
  if acc ≠ 0 then
    max (-c.max_speed) (min c.max_speed (c.speed + acc * dt))
  else
    snapSmall (c.speed - c.speed * (3 / 5) * dt)

/-- `Car.update(self, dt, track)`, with the input supplied explicitly
(the Python code obtains it from `self._get_input()`, which subclasses
override).  Steps, in source order:

1. `self.acceleration = forward * 5000 * dt`; accelerate-and-clamp or
   decay-and-snap (see `speedAfterInput`);
2. `self.out_of_track = not all(Polygon(track.polygon).contains(Point(x, y))
   for x, y in self.get_transform())` — all four corners, at the
   pre-move position;
3. if `abs(speed) > max_speed * 0.2 and out_of_track`: decay
   `speed -= speed * 6 * dt` and snap small values to zero (a gradual
   decay, not a clamp);
4. `translate_forward(-speed * dt)` — position moves by
   `dir(rot) * (-speed * dt)` with `dir(rad) = (sin rad, -cos rad)` —
   then `rotate(-turn * turn_speed * dt)` (wrapping mod `2π`);
5. the progress loop over `track.polyline` at the new position. -/
def Car.update (tg : TrigM) (c : CarState) (inp : CarInput) (dt : ℚ)
    (track : TrackM) : CarState :=
  let acc := inp.forward * 5000 * dt
  let s1 := speedAfterInput c inp dt
  let oot := !(Car.get_transform tg c).all track.containsPt
  let s2 :=
    if |s1| > c.max_speed * (1 / 5) ∧ oot = true then
      snapSmall (s1 - s1 * 6 * dt)
    else s1
  let x' := c.x + tg.sinF c.rot * (-s2 * dt)
  let y' := c.y + -tg.cosF c.rot * (-s2 * dt)
  let rot' := tg.wrapTwoPi (c.rot + -inp.turn * c.turn_speed * dt)
  { c with
    acceleration := acc
    speed := s2
    out_of_track := oot
    x := x', y := y', rot := rot'
    progress := progressLoop (checkPt track (x', y')) c.progress track.polyline.length }

/-- `Car.set_start_pos(self, track)` : place the car at the first curve
point, facing from point 0 toward point 1 (`atan2(dx, dy) - π`), zero
the dynamics, and reset `progress`/`total_progress`.  (The Python code
would raise `IndexError` on a curve with fewer than two points; the
`getD` defaults stand in for that unreachable read.) -/
def Car.set_start_pos (tg : TrigM) (c : CarState) (track : TrackM) : CarState :=
  let p0 := track.curvePts.getD 0 (0, 0)
  let p1 := track.curvePts.getD 1 (0, 0)
  { c with
    x := p0.1, y := p0.2
    speed := 0, acceleration := 0
    out_of_track := false
    rot := tg.atan2F (p1.1 - p0.1) (p1.2 - p0.2) - tg.piQ
    progress := 0
    total_progress := track.polyline.length }

/-- A sequence of `Car.update` calls against one track, each step
supplying that tick's input and `dt`. -/
def Car.iterUpdates (tg : TrigM) (track : TrackM) (c : CarState)
    (steps : List (CarInput × ℚ)) : CarState :=
  steps.foldl (fun s st => Car.update tg s st.1 st.2 track) c

/-! ## `engine/entity/car.py` : `selection_and_reproduce`

Python manipulates the population's `CarNN` objects through references,
and `deepcopy` matters precisely because it breaks reference sharing.
To make that observable, networks live in an explicit store (a grow-only
list standing for the heap) and each population member holds a
reference (an index) into it.  `deepcopy(nn)` allocates a fresh cell;
`nn.mutate(...)` mutates in place, i.e. rewrites the referenced cell —
since here `mutate` is always called immediately on the fresh copy, the
model allocates the mutated value directly. -/

/-- A heap of `CarNN` objects; references are indices into `mem`. -/
structure NNStore where
  mem : List CarNN

/-- The default `CarNN` value; never the result of a valid reference
lookup (see the store-validity hypotheses below). -/
def dfltNN : CarNN :=
  { prev_fitness := none, prev_weights := none, weights := []
    layer_sizes := [], hiddens := [] }

/-- Dereference. -/
def NNStore.get (st : NNStore) (r : ℕ) : CarNN := st.mem.getD r dfltNN

/-- Allocate a fresh cell holding `nn`; returns the new reference. -/
def NNStore.alloc (st : NNStore) (nn : CarNN) : ℕ × NNStore :=
  (st.mem.length, ⟨st.mem ++ [nn]⟩)

/-- The part of an `AICar` that `selection_and_reproduce` touches: its
network (by reference) and the fields `get_fitness` reads. -/
structure AICarM where
  nnRef : ℕ
  progress : ℕ
  total_progress : ℕ
deriving DecidableEq

/-- Placeholder member for `getD`; the loop below only indexes in
bounds, so it is never read. -/
def dfltCar : AICarM := { nnRef := 0, progress := 0, total_progress := 0 }

/-- `AICar.get_fitness(self) = self.progress / self.total_progress`.
(Python raises `ZeroDivisionError` when `total_progress = 0`; rational
division then yields `0` instead — no claim evaluates that state.) -/
def AICarM.get_fitness (m : AICarM) : ℚ := (m.progress : ℚ) / (m.total_progress : ℚ)

/-- Stable insertion into a fitness-descending list: the new element
goes after every element of strictly greater fitness and before
equal-fitness elements that occurred later in the original list. -/
def insertDesc (m : AICarM) : List AICarM → List AICarM
  | [] => [m]
  | a :: as => if m.get_fitness < a.get_fitness then a :: insertDesc m as else m :: a :: as

/-- `population.sort(key=lambda x: x.get_fitness(), reverse=True)` :
Python's stable sort, descending by fitness.  Insertion sort is stable,
so it computes the same list as Timsort with `reverse=True`. -/
def sortDesc (l : List AICarM) : List AICarM := l.foldr insertDesc []

/-- The loop

  for i in range(select_count, len(population)):
      population[i].nn = deepcopy(population[i % select_count].nn)
      population[i].nn.mutate(0.1, 0.1, population[i].get_fitness())

over the already-sorted population.  `zs i` supplies the Gaussian draws
of the `mutate` call for slot `i`. -/
def reproGo (zs : ℕ → ℕ → ℕ → ℕ → ℚ) (sc : ℕ) :
    ℕ → List AICarM → NNStore → List AICarM × NNStore
  | i, pop, st =>
    if _h : i < pop.length then
      let parent := pop.getD (i % sc) dfltCar
      let self := pop.getD i dfltCar
      let mutated :=
        (st.get parent.nnRef).mutate (1 / 10) (1 / 10) (some self.get_fitness) (zs i)
      let r := (st.alloc mutated).1
      reproGo zs sc (i + 1) (pop.set i { self with nnRef := r }) (st.alloc mutated).2
    else (pop, st)
termination_by i pop => pop.length - i
decreasing_by simpa using Nat.sub_lt_sub_left _h (Nat.lt_succ_self i)

/-- `selection_and_reproduce(select_count, population)` : return
unchanged when `select_count == 0`, else sort descending by fitness and
run the reproduction loop from index `select_count`. -/
def selection_and_reproduce (zs : ℕ → ℕ → ℕ → ℕ → ℚ) (sc : ℕ)
    (pop : List AICarM) (st : NNStore) : List AICarM × NNStore :=
  if sc = 0 then (pop, st)
  else reproGo zs sc sc (sortDesc pop) st

/-! ## `engine/bezier_curve.py` : `BezierCurvePoint` and curve (de)serialization

Strings are modelled as `List Char`.  `serialize` is
`"\n".join(f"{p.x} {p.y} {p.control_x} {p.control_y}" for p in pts)`;
`deserialize` rebuilds points from
`map(int, line.strip().split())` for every line of `data.split("\n")`
whose `strip()` is non-empty. -/

/-- A control point of the Bézier curve (the class annotates the four
coordinates as `int`). -/
structure BezierCurvePoint where
  x : ℤ
  y : ℤ
  control_x : ℤ
  control_y : ℤ
deriving DecidableEq

/-- Decimal digits of a natural number, most significant first
(`natDigs 0 = [0]`, matching `f"{0}" = "0"`). -/
def natDigs (n : ℕ) : List ℕ :=
  if _h : n < 10 then [n] else natDigs (n / 10) ++ [n % 10]
termination_by n
decreasing_by exact Nat.div_lt_self (by omega) (by omega)

/-- The character of a decimal digit. -/
def digitChar : ℕ → Char
  | 0 => '0' | 1 => '1' | 2 => '2' | 3 => '3' | 4 => '4'
  | 5 => '5' | 6 => '6' | 7 => '7' | 8 => '8' | _ => '9'

/-- Python's `f"{z}"` for an int: minus sign for negatives, then the
decimal digits with no leading zeros. -/
def intChars (z : ℤ) : List Char :=
  if z < 0 then '-' :: (natDigs (-z).toNat).map digitChar
  else (natDigs z.toNat).map digitChar

/-- `"\n".join`-style interleaving of a separator character. -/
def intercalateChar (c : Char) : List (List Char) → List Char
  | [] => []
  | [l] => l
  | l :: ls => l ++ c :: intercalateChar c ls

/-- One serialized line: `f"{p.x} {p.y} {p.control_x} {p.control_y}"`. -/
def pointLine (p : BezierCurvePoint) : List Char :=
  intChars p.x ++ (' ' :: (intChars p.y ++ (' ' :: (intChars p.control_x
    ++ (' ' :: intChars p.control_y)))))

/-- `BezierCurve.serialize(self)`. -/
def BezierCurve.serialize (pts : List BezierCurvePoint) : List Char :=
  intercalateChar '\n' (pts.map pointLine)

/-- Python's `str.split(sep)` for a one-character separator: always
returns one piece more than the number of separators (so `"" ↦ [""]`). -/
def splitOnChar (sep : Char) : List Char → List (List Char)
  | [] => [[]]
  | c :: cs =>
    match splitOnChar sep cs with
    | [] => [[]]
    | p :: ps => if c = sep then [] :: p :: ps else (c :: p) :: ps

/-- The whitespace characters of Python's default `str.strip()` /
`str.split()`. -/
def isPySpace (c : Char) : Bool :=
  c = ' ' || c = '\t' || c = '\n' || c = '\r' || c = '\x0b' || c = '\x0c'

/-- Python's `str.strip()`: drop whitespace from both ends. -/
def stripChars (l : List Char) : List Char :=
  ((l.dropWhile isPySpace).reverse.dropWhile isPySpace).reverse

/-- Dropping a prefix never lengthens a list. -/
theorem length_dropWhile_le (p : α → Bool) (l : List α) :
    (l.dropWhile p).length ≤ l.length := by
  induction l with
  | nil => simp
  | cons a as ih =>
    cases h : p a
    · simp [List.dropWhile, h]
    · simp [List.dropWhile, h]; omega

/-- Python's `str.split()` with no argument: split on runs of
whitespace, discarding empty pieces. -/
def splitWS (l : List Char) : List (List Char) :=
  match l with
  | [] => []
  | c :: cs =>
    if isPySpace c then splitWS cs
    else (c :: cs.takeWhile (fun d => !isPySpace d))
      :: splitWS (cs.dropWhile (fun d => !isPySpace d))
termination_by l.length
decreasing_by
  · simp
  · have := length_dropWhile_le (fun d => !isPySpace d) cs
    simp; omega

/-- The numeric value of a digit character, if it is one. -/
def digitVal (c : Char) : Option ℕ :=
  if '0' ≤ c ∧ c ≤ '9' then some (c.toNat - 48) else none

/-- Parse an unsigned decimal numeral (one or more digits). -/
def parseDigsAux (acc : ℕ) : List Char → Option ℕ
  | [] => some acc
  | c :: cs =>
    match digitVal c with
    | none => none
    | some d => parseDigsAux (10 * acc + d) cs

/-- Parse a non-empty unsigned decimal numeral. -/
def parseDigs (l : List Char) : Option ℕ :=
  if l.isEmpty then none else parseDigsAux 0 l

/-- Python's `int(token)` on a whitespace-free token: an optional sign
followed by digits.  (Real `int()` additionally tolerates surrounding
whitespace and underscores, which `serialize` never emits.) -/
def parsePyInt (l : List Char) : Option ℤ :=
  match l with
  | [] => none
  | c :: cs =>
    if c = '-' then (parseDigs cs).map (fun n : ℕ => -(n : ℤ))
    else if c = '+' then (parseDigs cs).map (fun n : ℕ => (n : ℤ))
    else (parseDigs (c :: cs)).map (fun n : ℕ => (n : ℤ))

/-- Parse one stripped line into a point:
`BezierCurvePoint(*map(int, line.split()))`; any number of tokens
other than four, or an unparsable token, is a Python exception,
modelled as `none`. -/
def parsePointLine (line : List Char) : Option BezierCurvePoint :=
  match splitWS line with
  | [a, b, cx, cy] =>
    match parsePyInt a, parsePyInt b, parsePyInt cx, parsePyInt cy with
    | some xa, some xb, some xcx, some xcy =>
      some { x := xa, y := xb, control_x := xcx, control_y := xcy }
    | _, _, _, _ => none
  | _ => none

/-- `BezierCurve.deserialize(data)` : one point per line of
`data.split("\n")` whose `strip()` is non-empty. -/
def BezierCurve.deserialize (data : List Char) : Option (List BezierCurvePoint) :=
  (((splitOnChar '\n' data).map stripChars).filter (fun l => !l.isEmpty)).mapM
    parsePointLine

/-! ## `engine/entity/ai_car.py` : the sensor rays of `AICar.update`

Per sensor rotation `a`, the code intersects the shapely
`LinearRing(track.polygon)` with the segment
`LineString([pos, pos + dir(a + rot) * SENSOR_DIST])`
(`SENSOR_DIST = 500`, `dir(rad) = (sin rad, -cos rad)`), and the sensor
value is `1.0` when the intersection is empty, else
`Point(pos).distance(intersection) / SENSOR_DIST`.

The shapely primitives are modelled set-theoretically over `ℝ`: the
ring is the union of its edges (consecutive vertex pairs, closed), the
intersection is the set of points on both the ring and the segment, and
the distance from a point to a set is the infimum of the pointwise
Euclidean distances. -/

/-- The edges of `shapely.LinearRing(ring)`: consecutive vertex pairs
plus the closing edge from the last vertex back to the first. -/
def edgesOf (ring : List (ℝ × ℝ)) : List ((ℝ × ℝ) × (ℝ × ℝ)) :=
  match ring with
  | [] => []
  | p :: _ => ring.zip (ring.tail ++ [p])

/-- Membership of `q` in the closed segment from `a` to `b`. -/
def onSeg (a b q : ℝ × ℝ) : Prop :=
  ∃ s : ℝ, 0 ≤ s ∧ s ≤ 1 ∧
    q.1 = a.1 + s * (b.1 - a.1) ∧ q.2 = a.2 + s * (b.2 - a.2)

/-- The point at parameter `t` along the sensor segment from `p` with
direction vector `v`. -/
def segPt (p v : ℝ × ℝ) (t : ℝ) : ℝ × ℝ := (p.1 + t * v.1, p.2 + t * v.2)

/-- The shapely intersection
`LinearRing(ring).intersection(LineString([p, p + v]))` as a point
set: the points of the sensor segment that lie on some ring edge. -/
def interPts (ring : List (ℝ × ℝ)) (p v : ℝ × ℝ) : Set (ℝ × ℝ) :=
  {q | (∃ e ∈ edgesOf ring, onSeg e.1 e.2 q) ∧
       ∃ t : ℝ, 0 ≤ t ∧ t ≤ 1 ∧ q = segPt p v t}

/-- Euclidean distance between two points. -/
noncomputable def euclidDist (p q : ℝ × ℝ) : ℝ :=
  Real.sqrt ((q.1 - p.1) ^ 2 + (q.2 - p.2) ^ 2)

/-- `Point(p).distance(g)` for a shapely geometry `g`: the infimum of
the distances from `p` to the points of `g`. -/
noncomputable def distToSet (p : ℝ × ℝ) (s : Set (ℝ × ℝ)) : ℝ :=
  sInf (euclidDist p '' s)

/-- `dir(rad) * SENSOR_DIST` with `dir(rad) = (sin rad, -cos rad)` and
`SENSOR_DIST = 500`. -/
noncomputable def sensorVec (rad : ℝ) : ℝ × ℝ :=
  (500 * Real.sin rad, -(500 * Real.cos rad))

open Classical in
/-- The value of one sensor of `AICar.update`: `1.0` when the ray's
intersection with the ring is empty, else the distance from the car to
the intersection, normalized by `SENSOR_DIST`. -/
noncomputable def sensorValue (ring : List (ℝ × ℝ)) (p : ℝ × ℝ) (rad : ℝ) : ℝ :=
  if interPts ring p (sensorVec rad) = ∅ then 1
  else distToSet p (interPts ring p (sensorVec rad)) / 500

/-- The sensor vector `AICar.update` stores: one `sensorValue` per
global ray rotation, `for rot in self.sensor_rots + self.rot`. -/
noncomputable def aiSensors (ring : List (ℝ × ℝ)) (p : ℝ × ℝ) (rot : ℝ)
    (sensor_rots : List ℝ) : List ℝ :=
  sensor_rots.map (fun a => sensorValue ring p (a + rot))

/-! ## Shared concrete instances used by evaluations and witnesses -/

/-- The all-zero family of standard-normal draws (every sampled
`N(loc, scale)` entry is exactly `loc`). -/
def zeroDraws : ℕ → ℕ → ℕ → ℚ := fun _ _ _ => 0

/-- `Except.isOk` (local copy): did the operation succeed? -/
def isOkE : Except ε α → Bool
  | .ok _ => true
  | .error _ => false

/-- The network built by `CarNN(activation, weights=[[[1],[2]]])`:
one `2 × 1` weight matrix, derived `layer_sizes = [1, 1]`, no hidden
layers, and no mutation memory. -/
def nnFromW : CarNN :=
  { prev_fitness := none, prev_weights := none, weights := [[[1], [2]]]
    layer_sizes := [1, 1], hiddens := [] }

/-- A network state inside the gradient-assisted regime: previous
fitness `0`, previous weights `[[1]]`, current weights `[[2]]`. -/
def nnGrad : CarNN :=
  { prev_fitness := some 0, prev_weights := some [[[1]]], weights := [[[2]]]
    layer_sizes := [0, 1], hiddens := [] }

/-- A concrete trigonometry oracle (`cos ≡ 1`, `sin ≡ 0`, no
wrapping), used to evaluate the kinematics at concrete inputs. -/
def tgTriv : TrigM :=
  { cosF := fun _ => 1, sinF := fun _ => 0, wrapTwoPi := fun r => r
    atan2F := fun _ _ => 0, piQ := 0 }

/-- A track whose polygon contains no point at all (e.g. the car is
far outside it), with an empty polyline. -/
def trackNone : TrackM :=
  { curvePts := [(0, 0), (0, 1)], polyline := [], width := 100
    containsPt := fun _ => false }

/-- A track whose polygon contains exactly the origin. -/
def trackOrigin : TrackM :=
  { curvePts := [(0, 0), (0, 1)], polyline := [], width := 100
    containsPt := fun p => decide (p = (0, 0)) }

/-- A car at the origin driving at full speed (`max_speed = 400`). -/
def carFast : CarState :=
  { x := 0, y := 0, rot := 0, speed := 400, acceleration := 0
    max_speed := 400, turn_speed := 2, out_of_track := false
    progress := 0, total_progress := 0 }

/-- A two-member population for the C3 witness: `mA` has fitness `1`. -/
def mA : AICarM := { nnRef := 0, progress := 1, total_progress := 1 }

/-- A two-member population for the C3 witness: `mB` has fitness `0`. -/
def mB : AICarM := { nnRef := 0, progress := 0, total_progress := 1 }

/-- A one-cell store for the C3 witness. -/
def stW : NNStore := ⟨[dfltNN]⟩

/-- All-zero draws for the C3 witness. -/
def zsW : ℕ → ℕ → ℕ → ℕ → ℚ := fun _ _ _ _ => 0

/-- The structural well-formedness that every network built from
exactly one constructor argument (with non-empty weights) satisfies:
the stored `layer_sizes` agree with the shapes of the stored weight
matrices, and there is at least one weight matrix. -/
def NNWellFormed (nn : CarNN) : Prop :=
  nn.weights ≠ [] ∧ nn.layer_sizes = reconstructedSizes nn.weights

/-- The degenerate network `CarNN(activation, layer_sizes=[1])`: a
single layer, hence an empty list of weight matrices. -/
def nnEmpty : CarNN :=
  { prev_fitness := none, prev_weights := none, weights := []
    layer_sizes := [1], hiddens := [] }

/-! ## Helper lemmas -/

/-- `mapWithIdx` of a pointwise-identity function is the identity. -/
theorem mapWithIdx_id (f : ℕ → α → α) (h : ∀ n a, f n a = a) :
    ∀ n l, mapWithIdx f n l = l := by
  intro n l
  induction l generalizing n with
  | nil => rfl
  | cons a as ih => simp [mapWithIdx, h, ih]

/-- Adding `N(0, 0)` noise leaves every weight matrix unchanged. -/
theorem addNoise_zero (z : ℕ → ℕ → ℕ → ℚ) (ws : List Mat) :
    addNoise 0 z ws = ws := by
  unfold addNoise
  refine mapWithIdx_id _ (fun k w => ?_) 0 ws
  refine mapWithIdx_id _ (fun i row => ?_) 0 w
  refine mapWithIdx_id _ (fun j x => ?_) 0 row
  ring

/-- With no previous weights, `mutate` is exactly the pure-random
branch (and in particular does not touch the mutation memory). -/
theorem CarNN.mutate_of_prev_none {nn : CarNN} (noise lr : ℚ) (cf : Option ℚ)
    (z : ℕ → ℕ → ℕ → ℚ) (h : nn.prev_weights = none) :
    nn.mutate noise lr cf z = { nn with weights := addNoise noise z nn.weights } := by
  unfold CarNN.mutate
  rw [if_pos (Or.inl h)]

/-- A successful `CarNN.__init__` leaves both mutation-memory fields
`None`. -/
theorem CarNN.init_ok_prev {w ls z nn} (h : CarNN.init w ls z = .ok nn) :
    nn.prev_weights = none ∧ nn.prev_fitness = none := by
  unfold CarNN.init at h
  split at h
  · simp at h
  · cases h
    exact ⟨rfl, rfl⟩

/-- A successful `CarNN.deserialize` leaves both mutation-memory
fields `None`. -/
theorem CarNN.deserialize_ok_prev {s ν z nn} (h : CarNN.deserialize s ν z = .ok nn) :
    nn.prev_weights = none ∧ nn.prev_fitness = none := by
  unfold CarNN.deserialize at h
  cases heq : CarNN.init (some s) none (fun _ _ _ => 0) with
  | error e => rw [heq] at h; simp at h
  | ok nn0 =>
    rw [heq] at h
    simp only [Except.ok.injEq] at h
    have h0 := CarNN.init_ok_prev heq
    subst h
    split
    · rw [CarNN.mutate_of_prev_none _ _ _ _ h0.1]
      exact h0
    · exact h0

/-- A successful `CarNN.activate` does not change the mutation-memory
fields. -/
theorem CarNN.activate_ok_prev {nn : CarNN} {act inp nn' out}
    (h : nn.activate act inp = .ok (nn', out)) :
    nn'.prev_weights = nn.prev_weights ∧ nn'.prev_fitness = nn.prev_fitness := by
  unfold CarNN.activate at h
  split at h
  · simp at h
  · split at h
    · simp at h
    · simp only [Except.ok.injEq, Prod.mk.injEq] at h
      obtain ⟨h1, _h2⟩ := h
      subst h1
      exact ⟨rfl, rfl⟩

/-- Claim C2: every `CarNN` reached through the public interface (the
constructor or `deserialize`, followed by any sequence of `activate`,
`serialize` and `mutate` calls) has `prev_weights = None` and
`prev_fitness = None`; consequently every `mutate` call on it takes the
pure-random branch, and the fitness-gradient-assisted update is never
executed. -/
theorem C2_prev_none_invariant : ∀ nn : CarNN, CarNN.Reachable nn →
    nn.prev_weights = none ∧ nn.prev_fitness = none ∧
    ∀ noise lr cf z, nn.mutate noise lr cf z
      = { nn with weights := addNoise noise z nn.weights } := by
  have key : ∀ nn : CarNN, CarNN.Reachable nn →
      nn.prev_weights = none ∧ nn.prev_fitness = none := by
    intro nn h
    induction h with
    | init w ls z nn h => exact CarNN.init_ok_prev h
    | deserialize s ν z nn h => exact CarNN.deserialize_ok_prev h
    | mutate nn noise lr cf z _hr ih =>
      rw [CarNN.mutate_of_prev_none _ _ _ _ ih.1]
      exact ih
    | activate nn act inp nn' out _hr hok ih =>
      have hp := CarNN.activate_ok_prev hok
      rw [hp.1, hp.2]
      exact ih
  intro nn h
  refine ⟨(key nn h).1, (key nn h).2, fun noise lr cf z => ?_⟩
  exact CarNN.mutate_of_prev_none _ _ _ _ (key nn h).1

/-- `nnFromW` is what the constructor returns on
`weights=[[[1],[2]]]`. -/
theorem init_nnFromW :
    CarNN.init (some [[[1], [2]]]) none zeroDraws = .ok nnFromW := by
  norm_num [CarNN.init, truthyList, nnFromW, reconstructedSizes, numCols, hiddensOf]

/-- Witness for C2 at a concrete constructor-built network. -/
theorem C2_prev_none_invariant_witness :
    nnFromW.prev_weights = none ∧ nnFromW.prev_fitness = none ∧
    nnFromW.mutate 1 1 (some 1) zeroDraws
      = { nnFromW with weights := addNoise 1 zeroDraws nnFromW.weights } := by
  have h := C2_prev_none_invariant nnFromW
    (CarNN.Reachable.init (some [[[1], [2]]]) none zeroDraws nnFromW init_nnFromW)
  exact ⟨h.1, h.2.1, h.2.2 1 1 (some 1) zeroDraws⟩

/-- In the gradient-assisted branch, the stored "previous" weights are
an alias of the list updated in place, so after the call they hold the
POST-update weights. -/
theorem CarNN.mutate_gradient_alias {nn : CarNN} {pw} (noise lr : ℚ) (cf : Option ℚ)
    (z : ℕ → ℕ → ℕ → ℚ) (h1 : nn.prev_weights = some pw) (h2 : cf ≠ none)
    (h3 : lr ≠ 0) :
    (nn.mutate noise lr cf z).prev_weights = some (nn.mutate noise lr cf z).weights := by
  unfold CarNN.mutate
  rw [if_neg (by simp [h1, h2, h3])]

/-- Claim C1 (evaluation at the failing input): in the
gradient-assisted branch, `mutate` computes the documented update
`w += learn_rate * sign(dfitness) * dweights * N(1, noise)` and sets
`prev_fitness = curr_fitness`, but because
`self.prev_weights = self.weights` stores a reference to the list whose
arrays the loop then updates in place, after the call `prev_weights`
holds the post-update weights — not the entry weights the claim
requires.  At the state `(prev_fitness, prev_weights, weights) =
(0, [[1]], [[2]])` with `noise = 0`, `learn_rate = 1`,
`curr_fitness = 1`: the update gives `2 + 1*sign(1)*(2-1)*1 = 3`, and
`prev_weights` ends as `[[3]]`, not `[[2]]`. -/
theorem C1_mutate_alias_eval :
    nnGrad.weights = [[[2]]] ∧
    (nnGrad.mutate 0 1 (some 1) zeroDraws).weights = [[[3]]] ∧
    (nnGrad.mutate 0 1 (some 1) zeroDraws).prev_fitness = some 1 ∧
    (nnGrad.mutate 0 1 (some 1) zeroDraws).prev_weights = some [[[3]]] := by
  have hw : (nnGrad.mutate 0 1 (some 1) zeroDraws).weights = [[[3]]] := by
    rw [CarNN.mutate, if_neg (by simp [nnGrad])]
    norm_num [nnGrad, mapWithIdx, sgn, zeroDraws]
  have ha := CarNN.mutate_gradient_alias 0 1 (some 1) zeroDraws
    (show nnGrad.prev_weights = some [[[1]]] from rfl) (by simp) (by norm_num)
  refine ⟨rfl, hw, ?_, ?_⟩
  · rw [CarNN.mutate, if_neg (by simp [nnGrad])]
  · rw [ha, hw]

/-- Claim C4: `mutate` leaves every weight matrix unchanged (1) in
pure-random mode with `noise = 0`, because the added perturbation
`N(0, 0)` is identically zero, and (2) in gradient-assisted mode with
`dfitness = 0`, because `np.sign(0) = 0` kills the whole update term
regardless of the noise scale. -/
theorem C4_mutate_noiseless_unchanged :
    (∀ (nn : CarNN) (lr : ℚ) (cf : Option ℚ) (z : ℕ → ℕ → ℕ → ℚ),
      (nn.prev_weights = none ∨ cf = none ∨ lr = 0) →
      (nn.mutate 0 lr cf z).weights = nn.weights) ∧
    (∀ (nn : CarNN) (pw : List Mat) (f noise lr : ℚ) (z : ℕ → ℕ → ℕ → ℚ),
      nn.prev_weights = some pw → nn.prev_fitness = some f → lr ≠ 0 →
      (nn.mutate noise lr (some f) z).weights = nn.weights) := by
  constructor
  · intro nn lr cf z h
    unfold CarNN.mutate
    rw [if_pos h]
    exact addNoise_zero z nn.weights
  · intro nn pw f noise lr z h1 h2 h3
    unfold CarNN.mutate
    rw [if_neg (by simp [h1, h3])]
    simp only [h2]
    refine mapWithIdx_id _ (fun k w => ?_) 0 nn.weights
    refine mapWithIdx_id _ (fun i row => ?_) 0 w
    refine mapWithIdx_id _ (fun j x => ?_) 0 row
    simp [sgn]

/-- Witness for C4, one concrete instance per mode. -/
theorem C4_mutate_noiseless_unchanged_witness :
    (nnFromW.mutate 0 0 none zeroDraws).weights = nnFromW.weights ∧
    (nnGrad.mutate 7 1 (some 0) zeroDraws).weights = nnGrad.weights := by
  refine ⟨C4_mutate_noiseless_unchanged.1 nnFromW 0 none zeroDraws ?_,
          C4_mutate_noiseless_unchanged.2 nnGrad [[[1]]] 0 7 1 zeroDraws rfl rfl ?_⟩
  · exact Or.inr (Or.inl rfl)
  · norm_num

/-- Claim C9 (amended): `CarNN.__init__` raises its configuration
`ValueError` exactly when BOTH arguments are falsy (`None` or an empty
list); any truthy argument — including both at once — makes
construction succeed. -/
theorem C9_init_succeeds_iff_some_truthy :
    ∀ (w : Option (List Mat)) (ls : Option (List ℤ)) (z : ℕ → ℕ → ℕ → ℚ),
    isOkE (CarNN.init w ls z) = (truthyList w || truthyList ls) := by
  intro w ls z
  unfold CarNN.init
  by_cases h1 : truthyList w <;> by_cases h2 : truthyList ls <;>
    simp [h1, h2, isOkE]

/-- Claim C9 counterexample: supplying BOTH `weights` and
`layer_sizes` (which the claim says must fail with a configuration
error) succeeds. -/
theorem C9_cex_both_supplied :
    isOkE (CarNN.init (some [[[1], [2]]]) (some [1, 1]) zeroDraws) = true := by
  norm_num [CarNN.init, truthyList, isOkE]

/-! ## Kinematics lemmas -/

/-- The progress loop never decreases progress (fueled form). -/
theorem progressLoop_ge_fuel (check : ℕ → Bool) :
    ∀ fuel p n, n - p ≤ fuel → p ≤ progressLoop check p n := by
  intro fuel
  induction fuel with
  | zero =>
    intro p n h
    rw [progressLoop]
    split
    · omega
    · exact le_refl p
  | succ f ih =>
    intro p n h
    rw [progressLoop]
    split
    · split
      · exact le_trans (Nat.le_succ p) (ih (p + 1) n (by omega))
      · exact le_refl p
    · exact le_refl p

/-- The progress loop never decreases progress. -/
theorem progressLoop_ge (check : ℕ → Bool) (p n : ℕ) :
    p ≤ progressLoop check p n :=
  progressLoop_ge_fuel check (n - p) p n le_rfl

/-- The progress loop never passes the end of the polyline (fueled
form). -/
theorem progressLoop_le_fuel (check : ℕ → Bool) :
    ∀ fuel p n, n - p ≤ fuel → p ≤ n → progressLoop check p n ≤ n := by
  intro fuel
  induction fuel with
  | zero =>
    intro p n h hpn
    rw [progressLoop]
    split
    · omega
    · exact hpn
  | succ f ih =>
    intro p n h hpn
    rw [progressLoop]
    split
    · split
      · exact ih (p + 1) n (by omega) (by omega)
      · exact hpn
    · exact hpn

/-- The progress loop never passes the end of the polyline. -/
theorem progressLoop_le (check : ℕ → Bool) {p n : ℕ} (h : p ≤ n) :
    progressLoop check p n ≤ n :=
  progressLoop_le_fuel check (n - p) p n le_rfl h

/-- Projections of `Car.update` that are immediate from its
definition. -/
theorem Car.update_proj (tg : TrigM) (c : CarState) (inp : CarInput) (dt : ℚ)
    (trk : TrackM) :
    (Car.update tg c inp dt trk).total_progress = c.total_progress ∧
    (Car.update tg c inp dt trk).max_speed = c.max_speed ∧
    (Car.update tg c inp dt trk).progress
      = progressLoop
          (checkPt trk
            (c.x + tg.sinF c.rot * (-(Car.update tg c inp dt trk).speed * dt),
             c.y + -tg.cosF c.rot * (-(Car.update tg c inp dt trk).speed * dt)))
          c.progress trk.polyline.length ∧
    (Car.update tg c inp dt trk).out_of_track
      = !((Car.get_transform tg c).all trk.containsPt) ∧
    (Car.update tg c inp dt trk).speed
      = (if |speedAfterInput c inp dt| > c.max_speed * (1 / 5) ∧
            (!((Car.get_transform tg c).all trk.containsPt)) = true
         then snapSmall (speedAfterInput c inp dt - speedAfterInput c inp dt * 6 * dt)
         else speedAfterInput c inp dt) :=
  ⟨rfl, rfl, rfl, rfl, rfl⟩

/-- Snapping small speeds to zero never increases the magnitude. -/
theorem abs_snapSmall (s : ℚ) : |snapSmall s| ≤ |s| := by
  unfold snapSmall
  split
  · simp
  · exact le_refl _

/-- Multiplying by a factor of magnitude at most one never increases a
magnitude bound. -/
theorem abs_mul_le_of_le {a b m : ℚ} (h1 : |a| ≤ m) (h2 : |b| ≤ 1) :
    |a * b| ≤ m := by
  rw [abs_mul]
  calc |a| * |b| ≤ m * 1 :=
        mul_le_mul h1 h2 (abs_nonneg b) (le_trans (abs_nonneg a) h1)
    _ = m := mul_one m

/-- The speed after the acceleration/deceleration stage stays within
`[-max_speed, max_speed]` whenever it was, for `0 < dt ≤ 1/3`. -/
theorem abs_speedAfterInput_le {c : CarState} {inp : CarInput} {dt : ℚ}
    (hs : |c.speed| ≤ c.max_speed) (hms : 0 ≤ c.max_speed)
    (hdt0 : 0 < dt) (hdt : dt ≤ 1 / 3) :
    |speedAfterInput c inp dt| ≤ c.max_speed := by
  simp only [speedAfterInput]
  split
  · rw [abs_le]
    constructor
    · exact le_max_left _ _
    · exact max_le (by linarith) (min_le_left _ _)
  · refine le_trans (abs_snapSmall _) ?_
    have he : c.speed - c.speed * (3 / 5) * dt = c.speed * (1 - 3 / 5 * dt) := by
      ring
    rw [he]
    refine abs_mul_le_of_le hs ?_
    rw [abs_le]
    constructor <;> linarith

/-- One `Car.update` tick keeps `|speed| ≤ max_speed`, provided
`0 < dt ≤ 1/3` and `max_speed ≥ 0`. -/
theorem Car.update_speed_le {tg : TrigM} {c : CarState} {inp : CarInput}
    {dt : ℚ} {trk : TrackM}
    (hs : |c.speed| ≤ c.max_speed) (hms : 0 ≤ c.max_speed)
    (hdt0 : 0 < dt) (hdt : dt ≤ 1 / 3) :
    |(Car.update tg c inp dt trk).speed| ≤ c.max_speed := by
  rw [(Car.update_proj tg c inp dt trk).2.2.2.2]
  have h1 : |speedAfterInput c inp dt| ≤ c.max_speed :=
    abs_speedAfterInput_le hs hms hdt0 hdt
  split
  · refine le_trans (abs_snapSmall _) ?_
    have he : speedAfterInput c inp dt - speedAfterInput c inp dt * 6 * dt
        = speedAfterInput c inp dt * (1 - 6 * dt) := by ring
    rw [he]
    refine abs_mul_le_of_le h1 ?_
    rw [abs_le]
    constructor <;> linarith
  · exact h1

/-- `Car.iterUpdates` distributes over list append. -/
theorem Car.iterUpdates_append (tg : TrigM) (trk : TrackM) (c : CarState)
    (steps more : List (CarInput × ℚ)) :
    Car.iterUpdates tg trk c (steps ++ more)
      = Car.iterUpdates tg trk (Car.iterUpdates tg trk c steps) more :=
  List.foldl_append _ _ _ _

/-- Progress can only grow along a run, and the bookkeeping invariant
`progress ≤ total_progress = len(polyline)` is preserved. -/
theorem Car.iterUpdates_progress_inv (tg : TrigM) (trk : TrackM) :
    ∀ (steps : List (CarInput × ℚ)) (c : CarState),
      c.progress ≤ (Car.iterUpdates tg trk c steps).progress ∧
      ((c.progress ≤ c.total_progress ∧ c.total_progress = trk.polyline.length) →
        ((Car.iterUpdates tg trk c steps).progress
            ≤ (Car.iterUpdates tg trk c steps).total_progress ∧
          (Car.iterUpdates tg trk c steps).total_progress
            = trk.polyline.length)) := by
  intro steps
  induction steps with
  | nil => exact fun c => ⟨le_refl _, fun h => h⟩
  | cons st rest ih =>
    intro c
    have hstep : Car.iterUpdates tg trk c (st :: rest)
        = Car.iterUpdates tg trk (Car.update tg c st.1 st.2 trk) rest := rfl
    have hmono : c.progress ≤ (Car.update tg c st.1 st.2 trk).progress := by
      rw [(Car.update_proj tg c st.1 st.2 trk).2.2.1]
      exact progressLoop_ge _ _ _
    constructor
    · rw [hstep]
      exact le_trans hmono (ih (Car.update tg c st.1 st.2 trk)).1
    · intro hinv
      rw [hstep]
      refine (ih (Car.update tg c st.1 st.2 trk)).2 ?_
      have ht := (Car.update_proj tg c st.1 st.2 trk).1
      constructor
      · rw [(Car.update_proj tg c st.1 st.2 trk).2.2.1, ht, hinv.2]
        exact progressLoop_le _ (by rw [← hinv.2]; exact hinv.1)
      · rw [ht, hinv.2]

/-- Claim C6: between two resets, `progress` is monotonically
non-decreasing along any sequence of `update` calls;
`0 ≤ progress ≤ total_progress = len(track.polyline)` holds after every
prefix of the run; and `set_start_pos` re-initializes `progress` to `0`
and `total_progress` to the length of the track's polyline. -/
theorem C6_progress_monotone_invariant (tg : TrigM) (trk : TrackM)
    (c0 : CarState) (steps more : List (CarInput × ℚ)) :
    (Car.iterUpdates tg trk (Car.set_start_pos tg c0 trk) steps).progress
      ≤ (Car.iterUpdates tg trk (Car.set_start_pos tg c0 trk) (steps ++ more)).progress ∧
    (Car.iterUpdates tg trk (Car.set_start_pos tg c0 trk) steps).progress
      ≤ (Car.iterUpdates tg trk (Car.set_start_pos tg c0 trk) steps).total_progress ∧
    (Car.iterUpdates tg trk (Car.set_start_pos tg c0 trk) steps).total_progress
      = trk.polyline.length ∧
    (Car.set_start_pos tg c0 trk).progress = 0 ∧
    (Car.set_start_pos tg c0 trk).total_progress = trk.polyline.length := by
  have hinv := (Car.iterUpdates_progress_inv tg trk steps
    (Car.set_start_pos tg c0 trk)).2 ⟨Nat.zero_le _, rfl⟩
  refine ⟨?_, hinv.1, hinv.2, rfl, rfl⟩
  rw [Car.iterUpdates_append]
  exact (Car.iterUpdates_progress_inv tg trk more _).1

/-- Claim C7 (amended): starting from a reset state, along any run
whose per-tick inputs satisfy `forward, turn ∈ [-1, 1]` and whose time
steps satisfy `0 < dt ≤ 1/3`, the speed magnitude never exceeds
`max_speed`.  (For larger `dt` the off-track decay overshoots and the
bound fails; see the counterexample.) -/
theorem C7_speed_bounded (tg : TrigM) (trk : TrackM) (c0 : CarState)
    (steps : List (CarInput × ℚ)) (hms : 0 ≤ c0.max_speed)
    (hsteps : ∀ s ∈ steps, (-1 ≤ s.1.forward ∧ s.1.forward ≤ 1) ∧
      (-1 ≤ s.1.turn ∧ s.1.turn ≤ 1) ∧ 0 < s.2 ∧ s.2 ≤ 1 / 3) :
    |(Car.iterUpdates tg trk (Car.set_start_pos tg c0 trk) steps).speed|
      ≤ c0.max_speed := by
  have key : ∀ (st : List (CarInput × ℚ)) (c : CarState),
      (∀ s ∈ st, 0 < s.2 ∧ s.2 ≤ 1 / 3) →
      |c.speed| ≤ c.max_speed → c.max_speed = c0.max_speed →
      |(Car.iterUpdates tg trk c st).speed| ≤ c0.max_speed := by
    intro st
    induction st with
    | nil =>
      intro c _ h1 h2
      exact h2 ▸ h1
    | cons s rest ih =>
      intro c hdts h1 h2
      have hstep : Car.iterUpdates tg trk c (s :: rest)
          = Car.iterUpdates tg trk (Car.update tg c s.1 s.2 trk) rest := rfl
      rw [hstep]
      have hdt := hdts s (List.mem_cons_self s rest)
      refine ih (Car.update tg c s.1 s.2 trk)
        (fun x hx => hdts x (List.mem_cons_of_mem s hx)) ?_ ?_
      · rw [(Car.update_proj tg c s.1 s.2 trk).2.1]
        exact Car.update_speed_le h1 (h2 ▸ hms) hdt.1 hdt.2
      · rw [(Car.update_proj tg c s.1 s.2 trk).2.1]
        exact h2
  refine key steps (Car.set_start_pos tg c0 trk)
    (fun s hs => ((hsteps s hs).2.2)) ?_ rfl
  have : (Car.set_start_pos tg c0 trk).speed = 0 := rfl
  rw [this]
  simpa using hms

/-- Claim C5 (amended): each tick sets `out_of_track` to the negation
of the containment test of ALL FOUR corners of the car rectangle (not
of the car's position point), and when `out_of_track` holds and the
post-acceleration speed magnitude exceeds `MAX_SPEED *
OUT_OF_TRACK_PENALTY` the speed is reduced that tick by
`speed * 6 * dt` (then snapped to zero when tiny) — a gradual
exponential decay toward the penalized cap, not a hard clamp to it;
otherwise the speed is left at its post-acceleration value. -/
theorem C5_out_of_track_decay (tg : TrigM) (c : CarState) (inp : CarInput)
    (dt : ℚ) (trk : TrackM) :
    (Car.update tg c inp dt trk).out_of_track
      = !((Car.get_transform tg c).all trk.containsPt) ∧
    ((Car.update tg c inp dt trk).out_of_track = true →
      |speedAfterInput c inp dt| > c.max_speed * (1 / 5) →
      (Car.update tg c inp dt trk).speed
        = snapSmall (speedAfterInput c inp dt
            - speedAfterInput c inp dt * 6 * dt)) ∧
    ((Car.update tg c inp dt trk).out_of_track = true →
      ¬(|speedAfterInput c inp dt| > c.max_speed * (1 / 5)) →
      (Car.update tg c inp dt trk).speed = speedAfterInput c inp dt) := by
  have proj := Car.update_proj tg c inp dt trk
  refine ⟨proj.2.2.2.1, ?_, ?_⟩
  · intro h1 h2
    rw [proj.2.2.2.2, if_pos ⟨h2, proj.2.2.2.1 ▸ h1⟩]
  · intro h1 h2
    rw [proj.2.2.2.2, if_neg (fun hc => h2 hc.1)]

/-- The off-track flag of the `carFast` run on the empty-contains
track. -/
theorem carFast_update_oot :
    (Car.update tgTriv carFast ⟨0, 0⟩ (1 / 100) trackNone).out_of_track = true := by
  rw [(Car.update_proj tgTriv carFast ⟨0, 0⟩ (1 / 100) trackNone).2.2.2.1]
  simp [Car.get_transform, trackNone]

/-- The post-acceleration speed of the `carFast` run: with
`forward = 0` the car decays from `400` to `397.6 = 1988/5`. -/
theorem carFast_speedAfterInput :
    speedAfterInput carFast ⟨0, 0⟩ (1 / 100) = 1988 / 5 := by
  norm_num [speedAfterInput, snapSmall, carFast]

/-- Claim C5 counterexample.  Part one: a car whose position IS
contained in the track polygon is still flagged `out_of_track`,
because the code tests the four rectangle corners, not the position.
Part two: a car at full speed `400` that leaves the track keeps speed
`46718/125 = 373.744` after the tick (`dt = 1/100`), far above the
claimed hard clamp `MAX_SPEED * OUT_OF_TRACK_PENALTY = 80`. -/
theorem C5_cex_corners_and_no_clamp :
    ((Car.update tgTriv (Car.init 0 0 0 400 2) ⟨0, 0⟩ 1 trackOrigin).out_of_track
        = true ∧
      trackOrigin.containsPt
        ((Car.init 0 0 0 400 2).x, (Car.init 0 0 0 400 2).y) = true) ∧
    ((Car.update tgTriv carFast ⟨0, 0⟩ (1 / 100) trackNone).out_of_track = true ∧
      (Car.update tgTriv carFast ⟨0, 0⟩ (1 / 100) trackNone).speed = 46718 / 125 ∧
      400 * (1 / 5)
        < |(Car.update tgTriv carFast ⟨0, 0⟩ (1 / 100) trackNone).speed|) := by
  have hsp : (Car.update tgTriv carFast ⟨0, 0⟩ (1 / 100) trackNone).speed
      = 46718 / 125 := by
    rw [(Car.update_proj tgTriv carFast ⟨0, 0⟩ (1 / 100) trackNone).2.2.2.2]
    rw [carFast_speedAfterInput]
    rw [if_pos ⟨by
      rw [show |(1988 : ℚ) / 5| = 1988 / 5 from abs_of_pos (by norm_num)]
      norm_num [carFast], by
      rw [← (Car.update_proj tgTriv carFast ⟨0, 0⟩ (1 / 100) trackNone).2.2.2.1]
      exact carFast_update_oot⟩]
    norm_num [snapSmall]
  refine ⟨⟨?_, ?_⟩, carFast_update_oot, hsp, ?_⟩
  · rw [(Car.update_proj tgTriv (Car.init 0 0 0 400 2) ⟨0, 0⟩ 1 trackOrigin).2.2.2.1]
    simp [Car.get_transform, rotateAngle, tgTriv, trackOrigin, Car.init,
      Prod.ext_iff]
  · simp [trackOrigin, Car.init]
  · rw [hsp]
    rw [show |(46718 : ℚ) / 125| = 46718 / 125 from abs_of_pos (by norm_num)]
    norm_num

/-- Witness for C5 at the `carFast` run: the decay branch fires and
rewrites the speed as the amended claim states. -/
theorem C5_out_of_track_decay_witness :
    (Car.update tgTriv carFast ⟨0, 0⟩ (1 / 100) trackNone).speed
      = snapSmall (speedAfterInput carFast ⟨0, 0⟩ (1 / 100)
          - speedAfterInput carFast ⟨0, 0⟩ (1 / 100) * 6 * (1 / 100)) := by
  refine (C5_out_of_track_decay tgTriv carFast ⟨0, 0⟩ (1 / 100) trackNone).2.1
    carFast_update_oot ?_
  rw [carFast_speedAfterInput]
  rw [show |(1988 : ℚ) / 5| = 1988 / 5 from abs_of_pos (by norm_num)]
  norm_num [carFast]

/-- Claim C7 counterexample: one tick of `dt = 1` with full throttle
from a reset state on a track that contains no point: the clamped
speed `400` is multiplied by `1 - 6*1 = -5`, giving `-2000`, whose
magnitude exceeds both `MAX_SPEED = 400` and the off-track cap
`MAX_SPEED * 0.2 = 80` while `out_of_track` holds. -/
theorem C7_cex_large_dt :
    (Car.update tgTriv (Car.set_start_pos tgTriv (Car.init 0 0 0 400 2) trackNone)
        ⟨1, 0⟩ 1 trackNone).speed = -2000 ∧
    (Car.update tgTriv (Car.set_start_pos tgTriv (Car.init 0 0 0 400 2) trackNone)
        ⟨1, 0⟩ 1 trackNone).out_of_track = true ∧
    400 < |(Car.update tgTriv (Car.set_start_pos tgTriv (Car.init 0 0 0 400 2)
        trackNone) ⟨1, 0⟩ 1 trackNone).speed| ∧
    400 * (1 / 5) < |(Car.update tgTriv (Car.set_start_pos tgTriv
        (Car.init 0 0 0 400 2) trackNone) ⟨1, 0⟩ 1 trackNone).speed| := by
  have hoot : (Car.update tgTriv
      (Car.set_start_pos tgTriv (Car.init 0 0 0 400 2) trackNone)
      ⟨1, 0⟩ 1 trackNone).out_of_track = true := by
    rw [(Car.update_proj tgTriv _ ⟨1, 0⟩ 1 trackNone).2.2.2.1]
    simp [Car.get_transform, trackNone]
  have hsp : (Car.update tgTriv
      (Car.set_start_pos tgTriv (Car.init 0 0 0 400 2) trackNone)
      ⟨1, 0⟩ 1 trackNone).speed = -2000 := by
    rw [(Car.update_proj tgTriv _ ⟨1, 0⟩ 1 trackNone).2.2.2.2]
    have hs1 : speedAfterInput
        (Car.set_start_pos tgTriv (Car.init 0 0 0 400 2) trackNone) ⟨1, 0⟩ 1
        = 400 := by
      norm_num [speedAfterInput, Car.set_start_pos, Car.init, tgTriv, trackNone]
    rw [hs1]
    rw [if_pos ⟨by norm_num [Car.set_start_pos, Car.init, trackNone], by
      rw [← (Car.update_proj tgTriv _ ⟨1, 0⟩ 1 trackNone).2.2.2.1]
      exact hoot⟩]
    norm_num [snapSmall]
  refine ⟨hsp, hoot, ?_, ?_⟩
  · rw [hsp]; norm_num
  · rw [hsp]; norm_num

/-- Witness for C7 at a concrete one-tick run with `dt = 1/4`. -/
theorem C7_speed_bounded_witness :
    |(Car.iterUpdates tgTriv trackNone
        (Car.set_start_pos tgTriv (Car.init 0 0 0 400 2) trackNone)
        [(⟨1, 0⟩, 1 / 4)]).speed| ≤ (Car.init 0 0 0 400 2).max_speed := by
  refine C7_speed_bounded tgTriv trackNone (Car.init 0 0 0 400 2)
    [(⟨1, 0⟩, 1 / 4)] ?_ ?_
  · norm_num [Car.init]
  · intro s hs
    rw [List.mem_singleton] at hs
    rw [hs]
    norm_num

/-! ## List access lemmas used by the selection proof -/

/-- `getD` after `set` at the written index. -/
theorem getD_set_self : ∀ (l : List α) (i : ℕ) (a d : α), i < l.length →
    (l.set i a).getD i d = a := by
  intro l
  induction l with
  | nil => intro i a d h; simp at h
  | cons x xs ih =>
    intro i a d h
    cases i with
    | zero => rfl
    | succ n =>
      simp only [List.set]
      rw [List.getD_cons_succ]
      exact ih n a d (by simpa using h)

/-- `getD` after `set` at a different index. -/
theorem getD_set_ne : ∀ (l : List α) (i j : ℕ) (a d : α), i ≠ j →
    (l.set i a).getD j d = l.getD j d := by
  intro l
  induction l with
  | nil => intro i j a d h; rfl
  | cons x xs ih =>
    intro i j a d h
    cases i with
    | zero =>
      cases j with
      | zero => exact absurd rfl h
      | succ m => rfl
    | succ n =>
      cases j with
      | zero => rfl
      | succ m =>
        simp only [List.set]
        rw [List.getD_cons_succ, List.getD_cons_succ]
        exact ih n m a d (by omega)

/-- `getD` on an append, inside the left part. -/
theorem getD_append_left : ∀ (l l' : List α) (n : ℕ) (d : α), n < l.length →
    (l ++ l').getD n d = l.getD n d := by
  intro l
  induction l with
  | nil => intro l' n d h; simp at h
  | cons x xs ih =>
    intro l' n d h
    cases n with
    | zero => rfl
    | succ m =>
      rw [List.cons_append, List.getD_cons_succ, List.getD_cons_succ]
      exact ih l' m d (by simpa using h)

/-- `getD` at the first appended cell. -/
theorem getD_append_len : ∀ (l : List α) (a d : α),
    (l ++ [a]).getD l.length d = a := by
  intro l
  induction l with
  | nil => intro a d; rfl
  | cons x xs ih =>
    intro a d
    rw [List.cons_append, List.length_cons, List.getD_cons_succ]
    exact ih a d

/-- An in-bounds `getD` is a member. -/
theorem getD_mem : ∀ (l : List α) (n : ℕ) (d : α), n < l.length →
    l.getD n d ∈ l := by
  intro l
  induction l with
  | nil => intro n d h; simp at h
  | cons x xs ih =>
    intro n d h
    cases n with
    | zero => exact List.mem_cons_self x xs
    | succ m =>
      rw [List.getD_cons_succ]
      exact List.mem_cons_of_mem x (ih m d (by simpa using h))

/-! ## Sorting lemmas -/

/-- Stable descending insertion produces a permutation. -/
theorem insertDesc_perm (m : AICarM) : ∀ l : List AICarM,
    (insertDesc m l).Perm (m :: l) := by
  intro l
  induction l with
  | nil => exact List.Perm.refl _
  | cons a as ih =>
    rw [insertDesc]
    split
    · exact ((ih.cons a).trans (List.Perm.swap m a as))
    · exact List.Perm.refl _

/-- `sortDesc` permutes the population. -/
theorem sortDesc_perm : ∀ l : List AICarM, (sortDesc l).Perm l := by
  intro l
  induction l with
  | nil => exact List.Perm.refl _
  | cons x xs ih =>
    have h1 : sortDesc (x :: xs) = insertDesc x (sortDesc xs) := rfl
    rw [h1]
    exact (insertDesc_perm x (sortDesc xs)).trans (ih.cons x)

/-- Insertion preserves descending sortedness. -/
theorem insertDesc_sorted (m : AICarM) : ∀ {l : List AICarM},
    List.Pairwise (fun a b => b.get_fitness ≤ a.get_fitness) l →
    List.Pairwise (fun a b => b.get_fitness ≤ a.get_fitness) (insertDesc m l) := by
  intro l
  induction l with
  | nil => intro _; simp [insertDesc]
  | cons a as ih =>
    intro h
    rw [insertDesc]
    split
    case isTrue hlt =>
      have hpc := List.pairwise_cons.1 h
      refine List.pairwise_cons.2 ⟨?_, ih hpc.2⟩
      intro x hx
      rcases List.mem_cons.mp ((insertDesc_perm m as).mem_iff.mp hx) with rfl | hx'
      · exact le_of_lt hlt
      · exact hpc.1 x hx'
    case isFalse hge =>
      refine List.pairwise_cons.2 ⟨?_, h⟩
      intro x hx
      rcases List.mem_cons.mp hx with rfl | hx'
      · exact le_of_not_lt hge
      · exact le_trans ((List.pairwise_cons.1 h).1 x hx') (le_of_not_lt hge)

/-- `sortDesc` sorts by fitness, in descending (non-strict) order. -/
theorem sortDesc_sorted : ∀ l : List AICarM,
    List.Pairwise (fun a b => b.get_fitness ≤ a.get_fitness) (sortDesc l) := by
  intro l
  induction l with
  | nil => simp [sortDesc]
  | cons x xs ih => exact insertDesc_sorted x ih

/-! ## The reproduction loop -/

/-- One unfolding of the loop at an in-range index. -/
theorem reproGo_step (zs : ℕ → ℕ → ℕ → ℕ → ℚ) (sc i : ℕ) (pop : List AICarM)
    (st : NNStore) (h : i < pop.length) :
    reproGo zs sc i pop st
      = reproGo zs sc (i + 1)
          (pop.set i { pop.getD i dfltCar with nnRef := st.mem.length })
          ⟨st.mem ++ [(st.get ((pop.getD (i % sc) dfltCar).nnRef)).mutate (1 / 10)
            (1 / 10) (some ((pop.getD i dfltCar).get_fitness)) (zs i)]⟩ := by
  rw [reproGo, dif_pos h]
  rfl

/-- The loop stops past the end of the population. -/
theorem reproGo_stop (zs : ℕ → ℕ → ℕ → ℕ → ℚ) (sc i : ℕ) (pop : List AICarM)
    (st : NNStore) (h : ¬i < pop.length) :
    reproGo zs sc i pop st = (pop, st) := by
  rw [reproGo, dif_neg h]

/-- Full characterization of the reproduction loop started at index
`i ≥ sc` on a store that validly holds every member's network:
lengths, untouched prefix, re-referenced suffix, untouched old store
cells, and the mutated-clone contents of the fresh cells. -/
theorem reproGo_spec (zs : ℕ → ℕ → ℕ → ℕ → ℚ) (sc : ℕ) (hsc : 0 < sc) :
    ∀ (fuel i : ℕ) (pop : List AICarM) (st : NNStore),
      pop.length - i ≤ fuel → sc ≤ i →
      (∀ m ∈ pop, m.nnRef < st.mem.length) →
      (reproGo zs sc i pop st).1.length = pop.length ∧
      (reproGo zs sc i pop st).2.mem.length
        = st.mem.length + (pop.length - i) ∧
      (∀ j, j < i →
        (reproGo zs sc i pop st).1.getD j dfltCar = pop.getD j dfltCar) ∧
      (∀ j, i ≤ j → j < pop.length →
        (reproGo zs sc i pop st).1.getD j dfltCar
          = { pop.getD j dfltCar with nnRef := st.mem.length + (j - i) }) ∧
      (∀ r, r < st.mem.length →
        (reproGo zs sc i pop st).2.get r = st.get r) ∧
      (∀ j, i ≤ j → j < pop.length →
        (reproGo zs sc i pop st).2.get (st.mem.length + (j - i))
          = (st.get ((pop.getD (j % sc) dfltCar).nnRef)).mutate (1 / 10) (1 / 10)
              (some ((pop.getD j dfltCar).get_fitness)) (zs j)) := by
  intro fuel
  induction fuel with
  | zero =>
    intro i pop st hf hi hv
    rw [reproGo_stop zs sc i pop st (by omega)]
    refine ⟨rfl, ?_, fun j _ => rfl, fun j hij hj => absurd hj (by omega),
      fun r _ => rfl, fun j hij hj => absurd hj (by omega)⟩
    show st.mem.length = st.mem.length + (pop.length - i)
    omega
  | succ f ih =>
    intro i pop st hf hi hv
    by_cases h : i < pop.length
    · rw [reproGo_step zs sc i pop st h]
      obtain ⟨IH1, IH2, IH3, IH4, IH5, IH6⟩ :=
        ih (i + 1)
          (pop.set i { pop.getD i dfltCar with nnRef := st.mem.length })
          ⟨st.mem ++ [(st.get ((pop.getD (i % sc) dfltCar).nnRef)).mutate (1 / 10)
            (1 / 10) (some ((pop.getD i dfltCar).get_fitness)) (zs i)]⟩
          (by simp only [List.length_set]; omega) (by omega)
          (by
            intro m hm
            rcases List.mem_or_eq_of_mem_set hm with hm' | rfl
            · have := hv m hm'
              simp only [List.length_append, List.length_cons, List.length_nil]
              omega
            · simp only [List.length_append, List.length_cons, List.length_nil]
              omega)
      have hstlen : (NNStore.mk (st.mem
          ++ [(st.get ((pop.getD (i % sc) dfltCar).nnRef)).mutate (1 / 10) (1 / 10)
            (some ((pop.getD i dfltCar).get_fitness)) (zs i)])).mem.length
          = st.mem.length + 1 := by
        simp
      refine ⟨?_, ?_, ?_, ?_, ?_, ?_⟩
      · rw [IH1, List.length_set]
      · rw [IH2, hstlen, List.length_set]
        omega
      · intro j hj
        rw [IH3 j (by omega)]
        exact getD_set_ne pop i j
          { pop.getD i dfltCar with nnRef := st.mem.length } dfltCar (by omega)
      · intro j hij hj
        by_cases hji : j = i
        · subst hji
          rw [IH3 j (by omega),
            getD_set_self pop j { pop.getD j dfltCar with nnRef := st.mem.length }
              dfltCar h]
          have hz : j - j = 0 := by omega
          rw [hz, Nat.add_zero]
        · rw [IH4 j (by omega) (by rw [List.length_set]; omega)]
          rw [getD_set_ne pop i j
            { pop.getD i dfltCar with nnRef := st.mem.length } dfltCar (by omega),
            hstlen]
          have harith : st.mem.length + 1 + (j - (i + 1))
              = st.mem.length + (j - i) := by omega
          rw [harith]
      · intro r hr
        rw [IH5 r (by rw [hstlen]; omega)]
        show (st.mem ++ _).getD r dfltNN = st.mem.getD r dfltNN
        exact getD_append_left st.mem _ r dfltNN hr
      · intro j hij hj
        have hmodj : j % sc < sc := Nat.mod_lt j hsc
        by_cases hji : j = i
        · subst hji
          have hz : j - j = 0 := by omega
          rw [hz, Nat.add_zero st.mem.length]
          rw [IH5 st.mem.length (by rw [hstlen]; omega)]
          show (st.mem ++ _).getD st.mem.length dfltNN = _
          rw [getD_append_len st.mem _ dfltNN]
        · have hij1 : i + 1 ≤ j := by omega
          have hidx : st.mem.length + (j - i)
              = (NNStore.mk (st.mem
                ++ [(st.get ((pop.getD (i % sc) dfltCar).nnRef)).mutate (1 / 10)
                  (1 / 10) (some ((pop.getD i dfltCar).get_fitness))
                  (zs i)])).mem.length + (j - (i + 1)) := by
            rw [hstlen]; omega
          rw [hidx, IH6 j hij1 (by rw [List.length_set]; omega)]
          rw [getD_set_ne pop i (j % sc)
            { pop.getD i dfltCar with nnRef := st.mem.length } dfltCar (by omega)]
          rw [getD_set_ne pop i j
            { pop.getD i dfltCar with nnRef := st.mem.length } dfltCar (by omega)]
          have hrefmem : (pop.getD (j % sc) dfltCar).nnRef < st.mem.length :=
            hv _ (getD_mem pop (j % sc) dfltCar (by omega))
          show ((st.mem ++ _).getD _ dfltNN).mutate _ _ _ _
              = (st.mem.getD _ dfltNN).mutate _ _ _ _
          rw [getD_append_left st.mem _ _ dfltNN hrefmem]
    · rw [reproGo_stop zs sc i pop st h]
      refine ⟨rfl, ?_, fun j _ => rfl, fun j hij hj => absurd hj (by omega),
        fun r _ => rfl, fun j hij hj => absurd hj (by omega)⟩
      show st.mem.length = st.mem.length + (pop.length - i)
      omega

/-- Claim C3: for `select_count > 0`, `selection_and_reproduce` sorts
the population in descending order of fitness (a permutation, stably
sorted); leaves the first `select_count` members — including their
network references — unchanged (elitism), and their stored networks
untouched; and for every index `j ≥ select_count` replaces member `j`'s
network with a freshly allocated deep copy of member
`j % select_count`'s network mutated with
`mutate(0.1, 0.1, member_j.get_fitness())` — the member's OWN fitness
(unchanged by the replacement), not the parent's — where the fresh
reference is distinct from every other member's reference, so no two
slots share mutable network state. -/
theorem C3_selection_and_reproduce (zs : ℕ → ℕ → ℕ → ℕ → ℚ) (sc : ℕ)
    (pop : List AICarM) (st : NNStore) (hsc : 0 < sc)
    (hv : ∀ m ∈ pop, m.nnRef < st.mem.length) :
    (sortDesc pop).Perm pop ∧
    List.Pairwise (fun a b => b.get_fitness ≤ a.get_fitness) (sortDesc pop) ∧
    (∀ j, j < sc →
      (selection_and_reproduce zs sc pop st).1.getD j dfltCar
        = (sortDesc pop).getD j dfltCar) ∧
    (∀ r, r < st.mem.length →
      (selection_and_reproduce zs sc pop st).2.get r = st.get r) ∧
    (∀ j, sc ≤ j → j < pop.length →
      (selection_and_reproduce zs sc pop st).1.getD j dfltCar
        = { (sortDesc pop).getD j dfltCar with
            nnRef := st.mem.length + (j - sc) } ∧
      (selection_and_reproduce zs sc pop st).2.get
          (((selection_and_reproduce zs sc pop st).1.getD j dfltCar).nnRef)
        = (st.get (((sortDesc pop).getD (j % sc) dfltCar).nnRef)).mutate (1 / 10)
            (1 / 10) (some (((sortDesc pop).getD j dfltCar).get_fitness))
            (zs j)) ∧
    (∀ j k, sc ≤ j → j < pop.length → k < pop.length → k ≠ j →
      ((selection_and_reproduce zs sc pop st).1.getD j dfltCar).nnRef
        ≠ ((selection_and_reproduce zs sc pop st).1.getD k dfltCar).nnRef) := by
  have hlen : (sortDesc pop).length = pop.length := (sortDesc_perm pop).length_eq
  have hvs : ∀ m ∈ sortDesc pop, m.nnRef < st.mem.length :=
    fun m hm => hv m ((sortDesc_perm pop).mem_iff.mp hm)
  have hunfold : selection_and_reproduce zs sc pop st
      = reproGo zs sc sc (sortDesc pop) st := by
    rw [selection_and_reproduce, if_neg (by omega)]
  obtain ⟨_S1, _S2, S3, S4, S5, S6⟩ :=
    reproGo_spec zs sc hsc ((sortDesc pop).length - sc) sc (sortDesc pop) st
      le_rfl le_rfl hvs
  have hrefat : ∀ j, sc ≤ j → j < pop.length →
      ((reproGo zs sc sc (sortDesc pop) st).1.getD j dfltCar).nnRef
        = st.mem.length + (j - sc) := by
    intro j h1 h2
    rw [S4 j h1 (by omega)]
  refine ⟨sortDesc_perm pop, sortDesc_sorted pop, ?_, ?_, ?_, ?_⟩
  · intro j hj
    rw [hunfold]
    exact S3 j hj
  · intro r hr
    rw [hunfold]
    exact S5 r hr
  · intro j hj1 hj2
    refine ⟨by rw [hunfold]; exact S4 j hj1 (by omega), ?_⟩
    rw [hunfold, hrefat j hj1 hj2]
    exact S6 j hj1 (by omega)
  · intro j k hj1 hj2 hk hkj
    rw [hunfold, hrefat j hj1 hj2]
    by_cases hksc : k < sc
    · rw [S3 k hksc]
      have hklt : ((sortDesc pop).getD k dfltCar).nnRef < st.mem.length :=
        hvs _ (getD_mem _ k dfltCar (by omega))
      omega
    · rw [hrefat k (by omega) hk]
      omega

/-- Witness for C3 on a concrete two-member population with
`select_count = 1`. -/
theorem C3_selection_and_reproduce_witness :
    (selection_and_reproduce zsW 1 [mA, mB] stW).1.getD 0 dfltCar
      = (sortDesc [mA, mB]).getD 0 dfltCar ∧
    (selection_and_reproduce zsW 1 [mA, mB] stW).1.getD 1 dfltCar
      = { (sortDesc [mA, mB]).getD 1 dfltCar with
          nnRef := stW.mem.length + (1 - 1) } ∧
    (selection_and_reproduce zsW 1 [mA, mB] stW).2.get
        (((selection_and_reproduce zsW 1 [mA, mB] stW).1.getD 1 dfltCar).nnRef)
      = (stW.get (((sortDesc [mA, mB]).getD (1 % 1) dfltCar).nnRef)).mutate
          (1 / 10) (1 / 10)
          (some (((sortDesc [mA, mB]).getD 1 dfltCar).get_fitness)) (zsW 1) := by
  have h := C3_selection_and_reproduce zsW 1 [mA, mB] stW (by decide)
    (by decide)
  exact ⟨h.2.2.1 0 (by decide), (h.2.2.2.2.1 1 le_rfl (by decide)).1,
    (h.2.2.2.2.1 1 le_rfl (by decide)).2⟩

/-! ## Decimal numeral round-trip -/

/-- A number's digit list is never empty. -/
theorem natDigs_ne_nil (n : ℕ) : natDigs n ≠ [] := by
  rw [natDigs]
  split
  · simp
  · simp

/-- Every digit produced is below ten. -/
theorem natDigs_lt (n : ℕ) : ∀ d ∈ natDigs n, d < 10 := by
  induction n using Nat.strong_induction_on with
  | _ n ih =>
    rw [natDigs]
    split
    · intro d hd
      rw [List.mem_singleton.mp hd]
      omega
    · intro d hd
      rcases List.mem_append.mp hd with hd' | hd'
      · exact ih (n / 10) (Nat.div_lt_self (by omega) (by omega)) d hd'
      · rw [List.mem_singleton.mp hd']
        exact Nat.mod_lt n (by omega)

/-- Folding the digits back with `10*acc + d` recovers the number. -/
theorem natDigs_foldl (n : ℕ) :
    (natDigs n).foldl (fun a d => 10 * a + d) 0 = n := by
  induction n using Nat.strong_induction_on with
  | _ n ih =>
    rw [natDigs]
    split
    · simp
    · rw [List.foldl_append]
      rw [ih (n / 10) (Nat.div_lt_self (by omega) (by omega))]
      simp only [List.foldl_cons, List.foldl_nil]
      omega

/-- `digitVal` inverts `digitChar` on actual digits. -/
theorem digitVal_digitChar {d : ℕ} (h : d < 10) :
    digitVal (digitChar d) = some d := by
  interval_cases d <;> rfl

/-- Digit characters are not Python whitespace. -/
theorem digitChar_not_space {d : ℕ} (h : d < 10) :
    isPySpace (digitChar d) = false := by
  interval_cases d <;> rfl

/-- Digit characters are not sign characters or newlines. -/
theorem digitChar_not_special {d : ℕ} (h : d < 10) :
    digitChar d ≠ '-' ∧ digitChar d ≠ '+' ∧ digitChar d ≠ '\n' := by
  interval_cases d <;> exact ⟨by decide, by decide, by decide⟩

/-- Parsing the rendered digits accumulates their value. -/
theorem parseDigsAux_digits : ∀ (ds : List ℕ), (∀ d ∈ ds, d < 10) →
    ∀ acc, parseDigsAux acc (ds.map digitChar)
      = some (ds.foldl (fun a d => 10 * a + d) acc) := by
  intro ds
  induction ds with
  | nil => intro _ acc; rfl
  | cons d rest ih =>
    intro h acc
    rw [List.map_cons, parseDigsAux,
      digitVal_digitChar (h d (List.mem_cons_self d rest))]
    exact ih (fun x hx => h x (List.mem_cons_of_mem d hx)) (10 * acc + d)

/-- Parsing the rendered digits of `n` gives back `n`. -/
theorem parseDigs_natDigs (n : ℕ) :
    parseDigs ((natDigs n).map digitChar) = some n := by
  rw [parseDigs]
  rw [if_neg (by simp [natDigs_ne_nil n])]
  rw [parseDigsAux_digits (natDigs n) (natDigs_lt n) 0, natDigs_foldl n]

/-- `int(f"{z}") == z`: the decimal rendering of an integer parses
back to the integer. -/
theorem parsePyInt_intChars (z : ℤ) : parsePyInt (intChars z) = some z := by
  by_cases hz : z < 0
  · rw [intChars, if_pos hz, parsePyInt, if_pos rfl, parseDigs_natDigs]
    simp only [Option.map_some']
    congr 1
    omega
  · rw [intChars, if_neg hz]
    cases hd : (natDigs z.toNat).map digitChar with
    | nil => exact absurd (List.map_eq_nil_iff.mp hd) (natDigs_ne_nil z.toNat)
    | cons c cs =>
      have hc : ∃ d, d ∈ natDigs z.toNat ∧ digitChar d = c := by
        rcases List.map_eq_cons_iff.mp hd with ⟨d, ds, hmem, hdc, _⟩
        exact ⟨d, hmem ▸ List.mem_cons_self d ds, hdc⟩
      obtain ⟨d, hdm, hdc⟩ := hc
      have hd10 : d < 10 := natDigs_lt z.toNat d hdm
      rw [parsePyInt]
      rw [if_neg (hdc ▸ (digitChar_not_special hd10).1)]
      rw [if_neg (hdc ▸ (digitChar_not_special hd10).2.1)]
      rw [← hd, parseDigs_natDigs]
      simp only [Option.map_some']
      congr 1
      omega

/-! ## Token and line structure of the serialized curve -/

/-- The rendering of an integer is a non-empty token containing
neither whitespace nor newlines. -/
theorem intChars_token (z : ℤ) :
    intChars z ≠ [] ∧ (∀ c ∈ intChars z, isPySpace c = false)
      ∧ ∀ c ∈ intChars z, c ≠ '\n' := by
  rw [intChars]
  split
  · refine ⟨by simp, ?_, ?_⟩
    · intro c hc
      rcases List.mem_cons.mp hc with rfl | hc'
      · rfl
      · obtain ⟨d, hdm, rfl⟩ := List.mem_map.mp hc'
        exact digitChar_not_space (natDigs_lt _ d hdm)
    · intro c hc
      rcases List.mem_cons.mp hc with rfl | hc'
      · decide
      · obtain ⟨d, hdm, rfl⟩ := List.mem_map.mp hc'
        exact (digitChar_not_special (natDigs_lt _ d hdm)).2.2
  · refine ⟨by simp [natDigs_ne_nil], ?_, ?_⟩
    · intro c hc
      obtain ⟨d, hdm, rfl⟩ := List.mem_map.mp hc
      exact digitChar_not_space (natDigs_lt _ d hdm)
    · intro c hc
      obtain ⟨d, hdm, rfl⟩ := List.mem_map.mp hc
      exact (digitChar_not_special (natDigs_lt _ d hdm)).2.2

/-- `takeWhile` passes over an all-true prefix. -/
theorem takeWhile_all_append (p : Char → Bool) :
    ∀ (tok rest : List Char), (∀ c ∈ tok, p c = true) →
      (tok ++ rest).takeWhile p = tok ++ rest.takeWhile p := by
  intro tok
  induction tok with
  | nil => intro rest _; rfl
  | cons c cs ih =>
    intro rest h
    rw [List.cons_append, List.takeWhile_cons, h c (List.mem_cons_self c cs),
      if_pos rfl, ih rest (fun x hx => h x (List.mem_cons_of_mem c hx))]
    rfl

/-- `dropWhile` drops exactly an all-true prefix. -/
theorem dropWhile_all_append (p : Char → Bool) :
    ∀ (tok rest : List Char), (∀ c ∈ tok, p c = true) →
      (tok ++ rest).dropWhile p = rest.dropWhile p := by
  intro tok
  induction tok with
  | nil => intro rest _; rfl
  | cons c cs ih =>
    intro rest h
    rw [List.cons_append, List.dropWhile_cons,
      h c (List.mem_cons_self c cs)]
    exact ih rest (fun x hx => h x (List.mem_cons_of_mem c hx))

/-- `str.split()` pulls off one whitespace-free token before a
space. -/
theorem splitWS_token (tok rest : List Char) (hne : tok ≠ [])
    (hns : ∀ c ∈ tok, isPySpace c = false) :
    splitWS (tok ++ ' ' :: rest) = tok :: splitWS rest := by
  cases tok with
  | nil => exact absurd rfl hne
  | cons c cs =>
    rw [List.cons_append, splitWS,
      if_neg (by simp [hns c (List.mem_cons_self c cs)])]
    have h1 : (cs ++ ' ' :: rest).takeWhile (fun d => !isPySpace d) = cs := by
      rw [takeWhile_all_append _ cs (' ' :: rest)
        (fun x hx => by simp [hns x (List.mem_cons_of_mem c hx)])]
      rw [List.takeWhile_cons]
      simp [isPySpace]
    have h2 : (cs ++ ' ' :: rest).dropWhile (fun d => !isPySpace d)
        = ' ' :: rest := by
      rw [dropWhile_all_append _ cs (' ' :: rest)
        (fun x hx => by simp [hns x (List.mem_cons_of_mem c hx)])]
      rw [List.dropWhile_cons]
      simp [isPySpace]
    rw [h1, h2]
    rw [splitWS, if_pos (by simp [isPySpace])]

/-- `str.split()` of a single whitespace-free token. -/
theorem splitWS_single (tok : List Char) (hne : tok ≠ [])
    (hns : ∀ c ∈ tok, isPySpace c = false) :
    splitWS tok = [tok] := by
  cases tok with
  | nil => exact absurd rfl hne
  | cons c cs =>
    rw [splitWS, if_neg (by simp [hns c (List.mem_cons_self c cs)])]
    have h1 : cs.takeWhile (fun d => !isPySpace d) = cs := by
      have := takeWhile_all_append (fun d => !isPySpace d) cs []
        (fun x hx => by simp [hns x (List.mem_cons_of_mem c hx)])
      simpa using this
    have h2 : cs.dropWhile (fun d => !isPySpace d) = [] := by
      have := dropWhile_all_append (fun d => !isPySpace d) cs []
        (fun x hx => by simp [hns x (List.mem_cons_of_mem c hx)])
      simpa using this
    rw [h1, h2]
    rw [splitWS]

/-- Splitting one serialized point line yields its four integer
tokens. -/
theorem splitWS_pointLine (p : BezierCurvePoint) :
    splitWS (pointLine p)
      = [intChars p.x, intChars p.y, intChars p.control_x,
         intChars p.control_y] := by
  rw [pointLine]
  rw [splitWS_token _ _ (intChars_token p.x).1 (intChars_token p.x).2.1]
  rw [splitWS_token _ _ (intChars_token p.y).1 (intChars_token p.y).2.1]
  rw [splitWS_token _ _ (intChars_token p.control_x).1
    (intChars_token p.control_x).2.1]
  rw [splitWS_single _ (intChars_token p.control_y).1
    (intChars_token p.control_y).2.1]

/-- Parsing a serialized point line recovers the point. -/
theorem parsePointLine_pointLine (p : BezierCurvePoint) :
    parsePointLine (pointLine p) = some p := by
  rw [parsePointLine, splitWS_pointLine]
  dsimp only
  rw [parsePyInt_intChars, parsePyInt_intChars, parsePyInt_intChars,
    parsePyInt_intChars]

/-- `split(sep)` always returns at least one piece. -/
theorem splitOnChar_ne_nil (sep : Char) : ∀ l, splitOnChar sep l ≠ [] := by
  intro l
  induction l with
  | nil => simp [splitOnChar]
  | cons c cs ih =>
    rw [splitOnChar]
    cases h : splitOnChar sep cs with
    | nil => exact absurd h ih
    | cons p ps =>
      dsimp only
      split <;> simp

/-- `split(sep)` of a separator-free string is one piece. -/
theorem splitOnChar_no_sep (sep : Char) : ∀ l, (∀ c ∈ l, c ≠ sep) →
    splitOnChar sep l = [l] := by
  intro l
  induction l with
  | nil => intro _; rfl
  | cons c cs ih =>
    intro h
    rw [splitOnChar, ih (fun x hx => h x (List.mem_cons_of_mem c hx))]
    dsimp only
    rw [if_neg (h c (List.mem_cons_self c cs))]

/-- `split(sep)` pulls off one separator-free piece before a
separator. -/
theorem splitOnChar_piece (sep : Char) :
    ∀ (l rest : List Char), (∀ c ∈ l, c ≠ sep) →
      splitOnChar sep (l ++ sep :: rest) = l :: splitOnChar sep rest := by
  intro l
  induction l with
  | nil =>
    intro rest _
    rw [List.nil_append, splitOnChar]
    cases h : splitOnChar sep rest with
    | nil => exact absurd h (splitOnChar_ne_nil sep rest)
    | cons p ps =>
      dsimp only
      rw [if_pos rfl]
  | cons c cs ih =>
    intro rest h
    rw [List.cons_append, splitOnChar,
      ih rest (fun x hx => h x (List.mem_cons_of_mem c hx))]
    dsimp only
    rw [if_neg (h c (List.mem_cons_self c cs))]

/-- `"\n".join` then `split("\n")` is the identity on non-empty lists
of newline-free lines. -/
theorem splitOnChar_intercalate (sep : Char) :
    ∀ ls : List (List Char), ls ≠ [] → (∀ l ∈ ls, ∀ c ∈ l, c ≠ sep) →
      splitOnChar sep (intercalateChar sep ls) = ls := by
  intro ls
  induction ls with
  | nil => intro h _; exact absurd rfl h
  | cons l ls' ih =>
    intro _ h
    cases ls' with
    | nil =>
      exact splitOnChar_no_sep sep l (h l (List.mem_cons_self l []))
    | cons l2 ls2 =>
      have hun : intercalateChar sep (l :: l2 :: ls2)
          = l ++ sep :: intercalateChar sep (l2 :: ls2) := rfl
      rw [hun, splitOnChar_piece sep l _
        (h l (List.mem_cons_self l (l2 :: ls2)))]
      rw [ih (List.cons_ne_nil l2 ls2)
        (fun x hx => h x (List.mem_cons_of_mem l hx))]

/-- The last element, when it exists, is a member. -/
theorem mem_of_getLast?_eq {l : List α} {c : α} (h : l.getLast? = some c) :
    c ∈ l := by
  obtain ⟨hne, hl⟩ := List.mem_getLast?_eq_getLast (Option.mem_def.mpr h)
  rw [hl]
  exact List.getLast_mem hne

/-- `getLast?` skips a prefix ending at a marker, when the tail after
the marker is non-empty. -/
theorem getLast?_append_cons (l1 : List α) (a : α) (l2 : List α) (h : l2 ≠ []) :
    (l1 ++ a :: l2).getLast? = l2.getLast? := by
  rw [show a :: l2 = [a] ++ l2 from rfl, ← List.append_assoc]
  exact List.getLast?_append_of_ne_nil _ h

/-- `strip()` is the identity on a string whose two ends are not
whitespace. -/
theorem stripChars_of_ends (l : List Char)
    (h1 : ∀ c, l.head? = some c → isPySpace c = false)
    (h2 : ∀ c, l.getLast? = some c → isPySpace c = false) :
    stripChars l = l := by
  rw [stripChars]
  cases l with
  | nil => rfl
  | cons c cs =>
    rw [List.dropWhile_cons, h1 c rfl]
    simp only [Bool.false_eq_true, if_false]
    cases hrev : (c :: cs).reverse with
    | nil => exact absurd hrev (by simp)
    | cons d ds =>
      have hlast : (c :: cs).getLast? = some d := by
        rw [← List.head?_reverse, hrev]
        rfl
      rw [List.dropWhile_cons, h2 d hlast]
      simp only [Bool.false_eq_true, if_false]
      rw [← hrev, List.reverse_reverse]

/-- A serialized point line is non-empty, newline-free, and stripped
of whitespace at both ends already. -/
theorem pointLine_shape (p : BezierCurvePoint) :
    pointLine p ≠ [] ∧ (∀ c ∈ pointLine p, c ≠ '\n') ∧
      stripChars (pointLine p) = pointLine p := by
  have hx := intChars_token p.x
  have hy := intChars_token p.y
  have hcx := intChars_token p.control_x
  have hcy := intChars_token p.control_y
  have hmem : ∀ c ∈ pointLine p, c = ' ' ∨ c ∈ intChars p.x ∨
      c ∈ intChars p.y ∨ c ∈ intChars p.control_x ∨
      c ∈ intChars p.control_y := by
    intro c hc
    rw [pointLine] at hc
    simp only [List.mem_append, List.mem_cons] at hc
    tauto
  refine ⟨?_, ?_, ?_⟩
  · rw [pointLine]
    cases hx' : intChars p.x with
    | nil => exact absurd hx' hx.1
    | cons a as => simp
  · intro c hc
    rcases hmem c hc with rfl | hm | hm | hm | hm
    · decide
    · exact hx.2.2 c hm
    · exact hy.2.2 c hm
    · exact hcx.2.2 c hm
    · exact hcy.2.2 c hm
  · refine stripChars_of_ends (pointLine p) ?_ ?_
    · intro c hc
      rw [pointLine] at hc
      cases hx' : intChars p.x with
      | nil => exact absurd hx' hx.1
      | cons a as =>
        rw [hx', List.cons_append] at hc
        have hca : a = c := by simpa using hc
        rw [← hca]
        exact hx.2.1 a (hx' ▸ List.mem_cons_self a as)
    · intro c hc
      rw [pointLine] at hc
      rw [getLast?_append_cons _ _ _ (by simp)] at hc
      rw [getLast?_append_cons _ _ _ (by simp)] at hc
      rw [getLast?_append_cons _ _ _ hcy.1] at hc
      exact hcy.2.1 c (mem_of_getLast?_eq hc)

/-- Parsing back a list of serialized lines recovers the points. -/
theorem mapM_parsePointLine : ∀ l : List BezierCurvePoint,
    (l.map pointLine).mapM parsePointLine = some l := by
  intro l
  induction l with
  | nil => rfl
  | cons p ps ih =>
    rw [List.map_cons]
    simp only [List.mapM_cons, parsePointLine_pointLine, ih, Option.pure_def,
      Option.bind_some]
    rfl

/-- Claims C10, curve half: the Bézier curve's text serialization
round-trips exactly, for every list of points. -/
theorem deserialize_serialize_curve (pts : List BezierCurvePoint) :
    BezierCurve.deserialize (BezierCurve.serialize pts) = some pts := by
  cases pts with
  | nil => rfl
  | cons p ps =>
    rw [BezierCurve.serialize, BezierCurve.deserialize]
    rw [splitOnChar_intercalate '\n' ((p :: ps).map pointLine) (by simp)
      (by
        intro l hl c hc
        obtain ⟨q, _, rfl⟩ := List.mem_map.mp hl
        exact (pointLine_shape q).2.1 c hc)]
    have hstrip : ((p :: ps).map pointLine).map stripChars
        = (p :: ps).map pointLine := by
      rw [List.map_map]
      exact List.map_congr_left (fun q _ => (pointLine_shape q).2.2)
    rw [hstrip]
    have hfilter : ((p :: ps).map pointLine).filter (fun l => !l.isEmpty)
        = (p :: ps).map pointLine := by
      refine List.filter_eq_self.mpr (fun a ha => ?_)
      obtain ⟨q, _, rfl⟩ := List.mem_map.mp ha
      simpa [List.isEmpty_iff] using (pointLine_shape q).1
    rw [hfilter, mapM_parsePointLine]

/-- Claims C10, network half: for a well-formed network the weight
blob round-trips through `serialize`/`deserialize` (noise 0),
reconstructing the weights and the layer sizes. -/
theorem deserialize_serialize_nn (nn : CarNN) (z : ℕ → ℕ → ℕ → ℚ)
    (h : NNWellFormed nn) :
    (CarNN.deserialize (CarNN.serialize nn) 0 z).map
        (fun m => (m.weights, m.layer_sizes))
      = Except.ok (nn.weights, nn.layer_sizes) := by
  obtain ⟨hne, hls⟩ := h
  cases hw : nn.weights with
  | nil => exact absurd hw hne
  | cons w ws =>
    rw [CarNN.serialize, CarNN.deserialize, hw]
    rw [CarNN.init]
    rw [if_neg (by simp [truthyList])]
    dsimp only [truthyList]
    rw [if_neg (by simp)]
    simp only [List.isEmpty_cons, Bool.not_false, if_true, Option.getD_some,
      Except.map]
    rw [← hw, ← hls]
    rfl

/-- Claim C10 (amended): serialization round-trips.  For every Bézier
curve, `deserialize(serialize(curve))` yields exactly the same point
coordinates; and for every network whose weights list is non-empty and
whose `layer_sizes` agree with its weight shapes (true of every
network built from exactly one truthy constructor argument),
deserializing its serialized weight blob with zero initial mutation
noise reconstructs the same `layer_sizes` and exact weight values (the
rational model is exact; in Python the values agree up to the
`float32` cast).  The non-emptiness condition is forced: see the
counterexample with an empty weights list. -/
theorem C10_serialization_roundtrip :
    ∀ (pts : List BezierCurvePoint) (nn : CarNN) (z : ℕ → ℕ → ℕ → ℚ),
      BezierCurve.deserialize (BezierCurve.serialize pts) = some pts ∧
      (NNWellFormed nn →
        (CarNN.deserialize (CarNN.serialize nn) 0 z).map
            (fun m => (m.weights, m.layer_sizes))
          = Except.ok (nn.weights, nn.layer_sizes)) :=
  fun pts nn z =>
    ⟨deserialize_serialize_curve pts, fun h => deserialize_serialize_nn nn z h⟩

/-- Claim C10 counterexample: the network `CarNN(act, layer_sizes=[1])`
is constructible but serializes to an empty weight list, which
`deserialize` rejects (both constructor arguments falsy), so its
round-trip raises instead of reconstructing the network. -/
theorem C10_cex_empty_network :
    CarNN.init none (some [1]) zeroDraws = .ok nnEmpty ∧
    CarNN.deserialize (CarNN.serialize nnEmpty) 0 zeroDraws
      = .error "Either weights or layer_sizes must be provided" := by
  constructor
  · rfl
  · rfl

/-- Witness for C10 at a one-point curve and the concrete network
`nnFromW`. -/
theorem C10_serialization_roundtrip_witness :
    BezierCurve.deserialize (BezierCurve.serialize [⟨1, -2, 3, 44⟩])
      = some [⟨1, -2, 3, 44⟩] ∧
    (CarNN.deserialize (CarNN.serialize nnFromW) 0 zeroDraws).map
        (fun m => (m.weights, m.layer_sizes))
      = Except.ok (nnFromW.weights, nnFromW.layer_sizes) := by
  refine ⟨(C10_serialization_roundtrip [⟨1, -2, 3, 44⟩] nnFromW zeroDraws).1,
    (C10_serialization_roundtrip [⟨1, -2, 3, 44⟩] nnFromW zeroDraws).2 ⟨?_, ?_⟩⟩
  · simp [nnFromW]
  · norm_num [nnFromW, reconstructedSizes, numCols]

/-! ## Sensor geometry lemmas -/

/-- The sensor direction vector has length `SENSOR_DIST = 500`. -/
theorem sensorVec_norm (rad : ℝ) :
    (sensorVec rad).1 ^ 2 + (sensorVec rad).2 ^ 2 = 500 ^ 2 := by
  show (500 * Real.sin rad) ^ 2 + (-(500 * Real.cos rad)) ^ 2 = 500 ^ 2
  calc (500 * Real.sin rad) ^ 2 + (-(500 * Real.cos rad)) ^ 2
      = 500 ^ 2 * (Real.sin rad ^ 2 + Real.cos rad ^ 2) := by ring
    _ = 500 ^ 2 * 1 := by rw [Real.sin_sq_add_cos_sq]
    _ = 500 ^ 2 := by ring

/-- Distance from the ray origin to the point at parameter `t ≥ 0`
along a direction vector of length 500. -/
theorem euclid_segPt (p v : ℝ × ℝ) (t : ℝ) (ht : 0 ≤ t)
    (hv : v.1 ^ 2 + v.2 ^ 2 = 500 ^ 2) :
    euclidDist p (segPt p v t) = t * 500 := by
  rw [euclidDist, segPt]
  have h1 : (p.1 + t * v.1 - p.1) ^ 2 + (p.2 + t * v.2 - p.2) ^ 2
      = t ^ 2 * (v.1 ^ 2 + v.2 ^ 2) := by ring
  rw [h1, hv, show t ^ 2 * 500 ^ 2 = (t * 500) ^ 2 from by ring]
  exact Real.sqrt_sq (by positivity)

/-- Every distance from the car to a ray/ring intersection point lies
in `[0, 500]`. -/
theorem interPts_dist_bounds (ring : List (ℝ × ℝ)) (p : ℝ × ℝ) (rad : ℝ) :
    ∀ x ∈ euclidDist p '' interPts ring p (sensorVec rad),
      0 ≤ x ∧ x ≤ 500 := by
  rintro x ⟨q, hq, rfl⟩
  obtain ⟨_, t, ht0, ht1, rfl⟩ := hq
  rw [euclid_segPt p _ t ht0 (sensorVec_norm rad)]
  constructor
  · positivity
  · calc t * 500 ≤ 1 * 500 :=
        mul_le_mul_of_nonneg_right ht1 (by norm_num)
    _ = 500 := one_mul 500

/-- Claim C8: on each AI-car tick, the sensor vector has one entry per
configured sensor rotation `a`, computed at global ray direction
`heading + a`; each sensor value lies in `[0, 1]`; it equals `1.0`
exactly as coded when the ray's intersection with the boundary ring is
empty; and otherwise it equals `min(d, SENSOR_DIST) / SENSOR_DIST`
where `d` is the distance from the car position to the intersection
set — the infimum of the point distances, so the NEAREST of multiple
edge crossings — and in particular it is a lower bound of every
crossing's normalized distance. -/
theorem C8_sensor_values (ring : List (ℝ × ℝ)) (p : ℝ × ℝ) (rot : ℝ)
    (sensor_rots : List ℝ) (rad : ℝ) :
    aiSensors ring p rot sensor_rots
      = sensor_rots.map (fun a => sensorValue ring p (rot + a)) ∧
    0 ≤ sensorValue ring p rad ∧ sensorValue ring p rad ≤ 1 ∧
    (interPts ring p (sensorVec rad) = ∅ → sensorValue ring p rad = 1) ∧
    (interPts ring p (sensorVec rad) ≠ ∅ →
      sensorValue ring p rad
        = min (distToSet p (interPts ring p (sensorVec rad))) 500 / 500 ∧
      ∀ q ∈ interPts ring p (sensorVec rad),
        sensorValue ring p rad ≤ euclidDist p q / 500) := by
  have hmap : aiSensors ring p rot sensor_rots
      = sensor_rots.map (fun a => sensorValue ring p (rot + a)) :=
    List.map_congr_left (fun a _ => by rw [add_comm])
  by_cases hE : interPts ring p (sensorVec rad) = ∅
  · rw [sensorValue]
    rw [if_pos hE]
    exact ⟨hmap, by norm_num, by norm_num, fun _ => rfl,
      fun hne => absurd hE hne⟩
  · have hSne : (euclidDist p '' interPts ring p (sensorVec rad)).Nonempty :=
      Set.Nonempty.image _ (Set.nonempty_iff_ne_empty.mpr hE)
    have hbdd : BddBelow (euclidDist p '' interPts ring p (sensorVec rad)) :=
      ⟨0, fun x hx => (interPts_dist_bounds ring p rad x hx).1⟩
    have hd0 : 0 ≤ distToSet p (interPts ring p (sensorVec rad)) :=
      Real.sInf_nonneg (fun x hx => (interPts_dist_bounds ring p rad x hx).1)
    have hd500 : distToSet p (interPts ring p (sensorVec rad)) ≤ 500 := by
      obtain ⟨x, hx⟩ := hSne
      exact le_trans (csInf_le hbdd hx) (interPts_dist_bounds ring p rad x hx).2
    have hval : sensorValue ring p rad
        = distToSet p (interPts ring p (sensorVec rad)) / 500 := by
      rw [sensorValue, if_neg hE]
    refine ⟨hmap, ?_, ?_, fun hc => absurd hc hE, fun _ => ⟨?_, ?_⟩⟩
    · rw [hval]
      positivity
    · rw [hval]
      rw [div_le_one (by norm_num)]
      exact hd500
    · rw [hval, min_eq_left hd500]
    · intro q hq
      rw [hval]
      have hle : distToSet p (interPts ring p (sensorVec rad))
          ≤ euclidDist p q :=
        csInf_le hbdd (Set.mem_image_of_mem _ hq)
      gcongr

/-- The ray of an empty ring meets nothing. -/
theorem interPts_nil (p : ℝ × ℝ) (v : ℝ × ℝ) : interPts [] p v = ∅ := by
  refine Set.eq_empty_iff_forall_not_mem.mpr (fun q hq => ?_)
  obtain ⟨⟨e, he, _⟩, _⟩ := hq
  exact absurd he (List.not_mem_nil e)

/-- Witness for C8 at an empty ring: no intersection, sensor reads
`1.0`, within bounds. -/
theorem C8_sensor_values_witness :
    sensorValue [] (0, 0) 0 = 1 ∧ 0 ≤ sensorValue [] (0, 0) 0 := by
  refine ⟨(C8_sensor_values [] (0, 0) 0 [] 0).2.2.2.1 ?_,
    (C8_sensor_values [] (0, 0) 0 [] 0).2.1⟩
  exact interPts_nil (0, 0) (sensorVec 0)

end SRLD
